import Mathlib

/-!
Shallow embedding of the extendible hash table of this repository
(`src/container/hash/extendible_hash_table.cpp`,
`src/storage/page/hash_table_bucket_page.cpp`, `src/buffer/lru_replacer.cpp`),
specialised to the `<int, int, IntComparator>` instantiation: keys and values
are `Nat`, `cmp(a,b) == 0` is `a = b`, value equality is `a = b`.

`BUCKET_ARRAY_SIZE` is the parameter `cap`, `DIRECTORY_ARRAY_SIZE` is the
parameter `dirCap`, and the hash function is a parameter `hf : Nat → Nat`
(the source downcasts MurmurHash to `u32`; only the low `global_depth`
bits are consumed, via masks, which we render as `% 2 ^ d`).

Pages live in a buffer pool owned list `pages : List Bucket`; `NewPage`
appends (the source's `AllocatePage` hands out fresh, increasing ids, so ids
are list indices and are never reused), `FetchPage p` reads index `p`, and
`DeletePage` leaves the entry in place (the directory never references a
deleted page again, so this is observationally inert). Page id `0` is the
directory page; the directory is kept in a dedicated field.

The directory page's own accessors (`GetGlobalDepthMask`, `GetLocalDepthMask`,
`Size`, `IncrGlobalDepth`, `IncrLocalDepth`, `DecrLocalDepth`, `CanShrink`,
`DecrGlobalDepth`) are not part of the three source files. They are modelled
from the spec (section 4.2): `size() = 1 <<< global_depth`, masks are
`2 ^ depth - 1` (so `x &&& mask = x % 2 ^ depth`), the depth bumps
increment/decrement the stored counter.
-/

namespace Bustub

/-- A bucket page: per-slot `occupied` and `readable` bitmaps and the
`(key, value)` payload `array_`, exactly the state of
`HashTableBucketPage`.  The bitmaps are bit-addressed; the source stores
them LSB-first in bytes, so byte `m` of `readable_` holds bits
`8*m .. 8*m+7`, which is how the `int32` fast paths of `IsFull`/`IsEmpty`
are rendered below. -/
structure Bucket where
  occupied : Nat → Bool
  readable : Nat → Bool
  data : Nat → Nat × Nat

/-- A freshly allocated (zeroed) page, as handed out by the buffer pool. -/
def zeroBucket : Bucket := ⟨fun _ => false, fun _ => false, fun _ => (0, 0)⟩

/-- `SetOccupied(i)`. -/
def setOccupied (b : Bucket) (i : Nat) : Bucket :=
  { b with occupied := fun j => if j = i then true else b.occupied j }

/-- `SetUnoccupied(i)`. -/
def setUnoccupied (b : Bucket) (i : Nat) : Bucket :=
  { b with occupied := fun j => if j = i then false else b.occupied j }

/-- `SetReadable(i)`. -/
def setReadable (b : Bucket) (i : Nat) : Bucket :=
  { b with readable := fun j => if j = i then true else b.readable j }

/-- `SetUnreadable(i)`. -/
def setUnreadable (b : Bucket) (i : Nat) : Bucket :=
  { b with readable := fun j => if j = i then false else b.readable j }

/-- `array_[i] = e`. -/
def setData (b : Bucket) (i : Nat) (e : Nat × Nat) : Bucket :=
  { b with data := fun j => if j = i then e else b.data j }

/-- The scan loop of `HashTableBucketPage::GetValue`: walk slots from `i`
while `occupied`, appending `array_[i].second` whenever the slot is readable
and the key matches; `find` threads the source's flag.  The first component
is the list of values appended to `*result`, the second the returned flag. -/
def getScan (b : Bucket) (k : Nat) : Nat → Nat → Bool → List Nat × Bool
  | 0, _i, find => ([], find)
  | fuel + 1, i, find =>
    if !(b.occupied i) then ([], find)
    else if b.readable i && (b.data i).1 == k then
      let r := getScan b k fuel (i + 1) true
      ((b.data i).2 :: r.1, r.2)
    else getScan b k fuel (i + 1) find

/-- `HashTableBucketPage::GetValue(key, cmp, result)`. -/
def bucketGetValue (cap : Nat) (b : Bucket) (k : Nat) : List Nat × Bool :=
  getScan b k cap 0 false

/-- Outcome of the scan loop of `HashTableBucketPage::Insert`. -/
inductive InsRes where
  | dup : InsRes
  | slot : Nat → InsRes
  | noSlot : InsRes
deriving DecidableEq

/-- The scan loop of `HashTableBucketPage::Insert`: `occ` is `occupy_index`
(`none` standing for the sentinel `BUCKET_ARRAY_SIZE`).  The loop breaks at
the first unoccupied slot once `occ` is set, reports `dup` on an identical
readable `(key, value)`, and records the first non-readable slot in `occ`.
`noSlot` is the state in which the source's `assert` would fire. -/
def insertScan (b : Bucket) (k v : Nat) : Nat → Nat → Option Nat → InsRes
  | 0, _i, occ =>
    match occ with
    | some j => .slot j
    | none => .noSlot
  | fuel + 1, i, occ =>
    if !(b.occupied i) && occ.isSome then
      match occ with
      | some j => .slot j
      | none => .noSlot
    else if b.readable i then
      if (b.data i).1 == k && (b.data i).2 == v then .dup
      else insertScan b k v fuel (i + 1) occ
    else insertScan b k v fuel (i + 1) (some (occ.getD i))

/-- The copy-down loop of `HashTableBucketPage::ReOrganize`: walk slots while
occupied, moving each readable payload to `array_[tail]` and setting
`readable[tail]`; returns the rewritten page and the final `tail`. -/
def reorgScan : Nat → Bucket → Nat → Nat → Bucket × Nat
  | 0, b, _i, tail => (b, tail)
  | fuel + 1, b, i, tail =>
    if !(b.occupied i) then (b, tail)
    else if b.readable i then
      reorgScan fuel (setReadable (setData b tail (b.data i)) tail) (i + 1) (tail + 1)
    else reorgScan fuel b (i + 1) tail

/-- The clearing loop of `ReOrganize`: `SetUnoccupied`/`SetUnreadable` on
`fuel` consecutive slots starting at `i`. -/
def clearFrom : Nat → Bucket → Nat → Bucket
  | 0, b, _i => b
  | fuel + 1, b, i => clearFrom fuel (setUnreadable (setUnoccupied b i) i) (i + 1)

/-- `HashTableBucketPage::ReOrganize`. -/
def reOrganize (cap : Nat) (b : Bucket) : Bucket :=
  let p := reorgScan cap b 0 0
  clearFrom (cap - p.2) p.1 p.2

/-- `HashTableBucketPage::Insert`.  `none` models the `assert(occupy_index !=
BUCKET_ARRAY_SIZE)` aborting; on invariant-satisfying pages it never occurs
(proved below). -/
def bucketInsert (cap : Nat) (b : Bucket) (k v : Nat) : Option (Bool × Bucket) :=
  let b1 := if b.occupied (cap - 1) then reOrganize cap b else b
  if b1.occupied (cap - 1) then some (false, b1)
  else
    match insertScan b1 k v cap 0 none with
    | .dup => some (false, b1)
    | .noSlot => none
    | .slot i => some (true, setReadable (setData (setOccupied b1 i) i (k, v)) i)

/-- The scan loop of `HashTableBucketPage::Remove`: first readable slot whose
entry equals `(k, v)`, stopping at the first unoccupied slot. -/
def removeScan (b : Bucket) (k v : Nat) : Nat → Nat → Option Nat
  | 0, _i => none
  | fuel + 1, i =>
    if !(b.occupied i) then none
    else if b.readable i && (b.data i).1 == k && (b.data i).2 == v then some i
    else removeScan b k v fuel (i + 1)

/-- `HashTableBucketPage::Remove`: clear the found slot's readable bit
(`occupied` is left as a tombstone); report whether an entry was removed. -/
def bucketRemove (cap : Nat) (b : Bucket) (k v : Nat) : Bool × Bucket :=
  match removeScan b k v cap 0 with
  | some i => (true, setUnreadable b i)
  | none => (false, b)

/-- Bits `8*byte .. 8*byte+31` of `readable_` all set: the source's
`*reinterpret_cast<int32_t *>(readable_ + i) == -1`. -/
def allReadable32 (b : Bucket) (byte : Nat) : Bool :=
  (List.range 32).all fun t => b.readable (8 * byte + t)

/-- Bits `8*byte .. 8*byte+31` of `readable_` not all clear: the source's
`*reinterpret_cast<int32_t *>(readable_ + i) != 0`. -/
def anyReadable32 (b : Bucket) (byte : Nat) : Bool :=
  (List.range 32).any fun t => b.readable (8 * byte + t)

/-- Trailing bitwise loop of `IsFull`: bits `start .. cap-1` all readable. -/
def tailAllReadable (cap : Nat) (b : Bucket) (start : Nat) : Bool :=
  (List.range' start (cap - start)).all fun t => b.readable t

/-- Trailing bitwise loop of `IsEmpty`: no readable bit in `start .. cap-1`. -/
def tailNoneReadable (cap : Nat) (b : Bucket) (start : Nat) : Bool :=
  (List.range' start (cap - start)).all fun t => !(b.readable t)

/-- The `int32` fast loop of `IsFull` (`i` counts bytes, stepping by 4 while
`i + 4 < n`), followed by the bitwise tail from bit `8*i`. -/
def isFullLoop (cap n : Nat) (b : Bucket) : Nat → Nat → Bool
  | 0, i => tailAllReadable cap b (8 * i)
  | fuel + 1, i =>
    if i + 4 < n then
      if allReadable32 b i then isFullLoop cap n b fuel (i + 4) else false
    else tailAllReadable cap b (8 * i)

/-- `HashTableBucketPage::IsFull`; `n = sizeof(readable_)` is the byte count
`(cap - 1) / 8 + 1`. -/
def isFull (cap : Nat) (b : Bucket) : Bool :=
  if !(b.occupied (cap - 1)) then false
  else isFullLoop cap ((cap - 1) / 8 + 1) b ((cap - 1) / 8 + 1) 0

/-- The `int32` fast loop of `IsEmpty`: early `true` when the first bit of the
4-byte group is unoccupied, `false` when any of its readable bits is set. -/
def isEmptyLoop (cap n : Nat) (b : Bucket) : Nat → Nat → Bool
  | 0, i => tailNoneReadable cap b (8 * i)
  | fuel + 1, i =>
    if i + 4 < n then
      if !(b.occupied (8 * i)) then true
      else if anyReadable32 b i then false
      else isEmptyLoop cap n b fuel (i + 4)
    else tailNoneReadable cap b (8 * i)

/-- `HashTableBucketPage::IsEmpty`. -/
def isEmpty (cap : Nat) (b : Bucket) : Bool :=
  isEmptyLoop cap ((cap - 1) / 8 + 1) b ((cap - 1) / 8 + 1) 0

/-- The multiset (as a list, in slot order) of live entries of a bucket:
payloads of the readable slots. -/
def entries (cap : Nat) (b : Bucket) : List (Nat × Nat) :=
  (List.range cap).filterMap fun i => if b.readable i then some (b.data i) else none

/-- Live-entry payloads among an explicit list of slots. -/
def entriesOn (b : Bucket) (l : List Nat) : List (Nat × Nat) :=
  l.filterMap fun i => if b.readable i then some (b.data i) else none

/-- The bucket bitmap invariant, with the occupied-prefix length `e` explicit:
`occupied` is exactly the slots below `e`, and every readable slot lies below
`e` (hence is occupied). -/
def bucketInvE (cap : Nat) (b : Bucket) (e : Nat) : Prop :=
  e ≤ cap ∧ (∀ i, b.occupied i = decide (i < e)) ∧ ∀ i, b.readable i = true → i < e

/-- The bucket bitmap invariant. -/
def bucketInv (cap : Nat) (b : Bucket) : Prop := ∃ e, bucketInvE cap b e

/-- The `HashTableDirectoryPage` state: `global_depth_`, `bucket_page_ids_`,
`local_depths_` (arrays rendered as functions on slot index). -/
structure DirPage where
  globalDepth : Nat
  bucketPageId : Nat → Nat
  localDepth : Nat → Nat

/-- Modelled from the spec: `Size() = 1 <<< global_depth`. -/
def dirSize (d : DirPage) : Nat := 2 ^ d.globalDepth

/-- `SetBucketPageId(i, v)`. -/
def setPid (d : DirPage) (i v : Nat) : DirPage :=
  { d with bucketPageId := fun j => if j = i then v else d.bucketPageId j }

/-- The copy loop of the table-level `ExtendibleHashTable::IncrGlobalDepth`
helper: for `i = size*2` down to `1`, `SetBucketPageId(i-1,
GetBucketPageId((i-1)/2))`. -/
def incrGDLoop : Nat → DirPage → DirPage
  | 0, d => d
  | i + 1, d => incrGDLoop i (setPid d i (d.bucketPageId (i / 2)))

/-- `ExtendibleHashTable::IncrGlobalDepth`: the copy loop followed by the
directory page's own `IncrGlobalDepth()`, which is modelled from the spec as
incrementing the stored `global_depth` (local depths are untouched). -/
def incrGlobalDepth (d : DirPage) : DirPage :=
  let d2 := incrGDLoop (2 * dirSize d) d
  { d2 with globalDepth := d2.globalDepth + 1 }

/-- `ExtendibleHashTable::Merge` acts only on the directory (plus one
`DeletePage`), so it is modelled at directory level: result flag, updated
directory, and the page id passed to `DeletePage` (if any).
`GetLocalDepthMask >> 1` is `2 ^ (ld - 1) - 1`, so `i &&& mask` is
`i % 2 ^ (ld - 1)`; `DecrLocalDepth` is modelled from the spec as
decrementing the stored depth (truncated at 0). -/
def mergeF (hf : Nat → Nat) (d : DirPage) (k : Nat) : Bool × DirPage × Option Nat :=
  let idx := hf k % dirSize d
  let thisPid := d.bucketPageId idx
  if d.localDepth idx = 0 then (false, d, none)
  else
    let ld := d.localDepth idx
    let m := 2 ^ (ld - 1)
    let v := idx % m
    if (List.range (dirSize d)).any (fun i => i % m == v && decide (ld < d.localDepth i)) then
      (false, d, none)
    else
      let buddyPid := d.bucketPageId (idx ^^^ m)
      (true,
        { d with
          bucketPageId := fun i =>
            if i < dirSize d ∧ i % m = v then buddyPid else d.bucketPageId i,
          localDepth := fun i =>
            if i < dirSize d ∧ i % m = v then d.localDepth i - 1 else d.localDepth i },
        some thisPid)

/-- Modelled from the spec: `can_shrink() = ∀ i in [0, size()):
local_depth[i] < global_depth`. -/
def canShrink (d : DirPage) : Bool :=
  (List.range (dirSize d)).all fun i => decide (d.localDepth i < d.globalDepth)

/-- `ExtendibleHashTable::Shrink`: compute the maximal local depth over the
live slots, then decrement `global_depth` down to it (the page's
`DecrGlobalDepth` is modelled from the spec as decrementing the counter). -/
def shrinkDir (d : DirPage) : DirPage :=
  let m := ((List.range (dirSize d)).map d.localDepth).foldr max 0
  { d with globalDepth := min d.globalDepth m }

/-- The whole-table state: the directory page (page id 0) plus the buffer
pool's pages, indexed by page id. -/
structure HT where
  dir : DirPage
  pages : List Bucket

/-- `FetchPage` of a bucket page (reachable states only ever fetch live ids,
so the default is immaterial). -/
def getPage (s : HT) (p : Nat) : Bucket := s.pages.getD p zeroBucket

/-- Writing a bucket page back (in-place page mutation). -/
def setPage (s : HT) (p : Nat) (b : Bucket) : HT :=
  { s with pages := s.pages.set p b }

/-- The freshly constructed table: the constructor allocates the directory
page (id 0, zeroed, so `global_depth = 0` and all depths 0) and one bucket
page (id 1), then `SetBucketPageId(0, 1)` and `SetLocalDepth(0, 0)`. -/
def initHT : HT :=
  ⟨⟨0, fun i => if i = 0 then 1 else 0, fun _ => 0⟩, [zeroBucket, zeroBucket]⟩

/-- `KeyToDirectoryIndex`: `Hash(key) &&& GetGlobalDepthMask()`. -/
def keyToDirIndex (hf : Nat → Nat) (d : DirPage) (k : Nat) : Nat :=
  hf k % dirSize d

/-- `KeyToPageId`. -/
def keyToPageId (hf : Nat → Nat) (d : DirPage) (k : Nat) : Nat :=
  d.bucketPageId (keyToDirIndex hf d k)

/-- `ExtendibleHashTable::GetValue`: resolve the bucket through the directory
and run the bucket scan (latches and pins leave no functional trace here). -/
def tableGetValue (cap : Nat) (hf : Nat → Nat) (s : HT) (k : Nat) : List Nat × Bool :=
  bucketGetValue cap (getPage s (keyToPageId hf s.dir k)) k

/-- The redistribution loop inside `IncrLocalDepth` for one side: walk the
old bucket's slots; for each readable entry whose hash satisfies
`(Hash(key) &&& new_local_mask) == new_local_value` (rendered `% 2 ^ dep ==
tgt`), insert it into the new bucket.  A failing insert is the source's
`LOG_ERROR` path, which makes `IncrLocalDepth` return false; the dead
re-check `if (!bucket->IsReadable(j)) new_bucket->RemoveAt(j)` is kept. -/
def moveLoop (cap : Nat) (hf : Nat → Nat) (dep tgt : Nat) (b : Bucket) :
    Nat → Nat → Bucket → Option (Bool × Bucket)
  | 0, _j, nb => some (true, nb)
  | fuel + 1, j, nb =>
    if b.readable j then
      if hf (b.data j).1 % 2 ^ dep == tgt then
        match bucketInsert cap nb (b.data j).1 (b.data j).2 with
        | none => none
        | some (false, nb2) => some (false, nb2)
        | some (true, nb2) =>
          let nb3 := if !(b.readable j) then setUnreadable nb2 j else nb2
          moveLoop cap hf dep tgt b fuel (j + 1) nb3
      else moveLoop cap hf dep tgt b fuel (j + 1) nb
    else moveLoop cap hf dep tgt b fuel (j + 1) nb

/-- The directory rewiring loop at the end of `IncrLocalDepth`: every slot
still pointing at the old page is redirected to `new_bucket_page_id[(i >>
local_depth) &&& 1]` and its local depth incremented (the page method
`IncrLocalDepth(i)` is modelled from the spec as `+ 1`). -/
def redirectDir (d : DirPage) (oldPid nid0 nid1 ld : Nat) : DirPage :=
  { d with
    bucketPageId := fun i =>
      if i < dirSize d ∧ d.bucketPageId i = oldPid then
        if i / 2 ^ ld % 2 = 0 then nid0 else nid1
      else d.bucketPageId i,
    localDepth := fun i =>
      if i < dirSize d ∧ d.bucketPageId i = oldPid then d.localDepth i + 1
      else d.localDepth i }

/-- `ExtendibleHashTable::IncrLocalDepth`: split the bucket at directory slot
`idx` into two freshly allocated pages (ids `pages.length` and
`pages.length + 1`), redistribute, rewire the directory, delete the old page
(inert here).  NOTE: mirroring the source, the success path returns `false`;
`none` is an `assert` abort inside a bucket insert. -/
def incrLocalDepth (cap : Nat) (hf : Nat → Nat) (s : HT) (idx : Nat) :
    Option (Bool × HT) :=
  let pid := s.dir.bucketPageId idx
  let ld := s.dir.localDepth idx
  let curVal := idx % 2 ^ ld
  let b := getPage s pid
  let nid0 := s.pages.length
  match moveLoop cap hf (ld + 1) curVal b cap 0 zeroBucket with
  | none => none
  | some (false, nb0) => some (false, { s with pages := s.pages ++ [nb0] })
  | some (true, nb0) =>
    let s1 : HT := { s with pages := s.pages ++ [nb0] }
    let nid1 := s1.pages.length
    match moveLoop cap hf (ld + 1) (curVal + 2 ^ ld) b cap 0 zeroBucket with
    | none => none
    | some (false, nb1) => some (false, { s1 with pages := s1.pages ++ [nb1] })
    | some (true, nb1) =>
      let s2 : HT := { s1 with pages := s1.pages ++ [nb1] }
      some (false, { s2 with dir := redirectDir s2.dir pid nid0 nid1 ld })

/-- The retry loop of `ExtendibleHashTable::SplitInsert`, with fuel: attempt
the bucket insert; on failure, grow the directory when the local depth has
reached the global depth (failing when `Size() * 2 > DIRECTORY_ARRAY_SIZE`),
then split via `IncrLocalDepth` (whose `false` aborts the loop), recompute
the bucket and retry.  `none` covers fuel exhaustion and `assert` aborts. -/
def splitInsertLoop (cap dirCap : Nat) (hf : Nat → Nat) :
    Nat → HT → Nat → Nat → Option (Bool × HT)
  | 0, _s, _k, _v => none
  | fuel + 1, s, k, v =>
    let pid := keyToPageId hf s.dir k
    match bucketInsert cap (getPage s pid) k v with
    | none => none
    | some (true, b2) => some (true, setPage s pid b2)
    | some (false, b2) =>
      let s1 := setPage s pid b2
      let idx := keyToDirIndex hf s1.dir k
      let gd := s1.dir.globalDepth
      if s1.dir.localDepth idx = gd ∧ dirSize s1.dir * 2 > dirCap then some (false, s1)
      else
        let s2 := if s1.dir.localDepth idx = gd then { s1 with dir := incrGlobalDepth s1.dir } else s1
        match incrLocalDepth cap hf s2 idx with
        | none => none
        | some (false, s3) => some (false, s3)
        | some (true, s3) => splitInsertLoop cap dirCap hf fuel s3 k v

/-- `ExtendibleHashTable::Insert`: try the bucket; return the result when it
succeeded or the bucket is not full, otherwise fall through to
`SplitInsert`. -/
def tableInsert (cap dirCap : Nat) (hf : Nat → Nat) (fuel : Nat) (s : HT) (k v : Nat) :
    Option (Bool × HT) :=
  let pid := keyToPageId hf s.dir k
  match bucketInsert cap (getPage s pid) k v with
  | none => none
  | some (ret, b2) =>
    let s1 := setPage s pid b2
    if ret then some (true, s1)
    else if !(isFull cap b2) then some (false, s1)
    else splitInsertLoop cap dirCap hf fuel s1 k v

/-- Buffer-pool events, for auditing the pin discipline of a call path. -/
inductive Ev where
  | fetch : Nat → Ev
  | unpin : Nat → Ev
  | newp : Nat → Ev
  | delp : Nat → Ev
deriving DecidableEq

/-- Contribution of one event to page `p`'s pin count. -/
def evDelta (p : Nat) : Ev → Int
  | .fetch q => if q = p then 1 else 0
  | .newp q => if q = p then 1 else 0
  | .unpin q => if q = p then -1 else 0
  | .delp _ => 0

/-- Net pin-count change of page `p` along a trace. -/
def pinDelta (tr : List Ev) (p : Nat) : Int :=
  (tr.map (evDelta p)).sum

/-- Buffer-pool trace of one `Merge` call: the directory wrapper fetches page
0 on entry and unpins it on every return; on success `DeletePage(this_page)`
happens before the wrapper's destructor. -/
def mergeTrace (m : Bool × DirPage × Option Nat) : List Ev :=
  Ev.fetch 0 ::
    ((match m.2.2 with
      | some p => [Ev.delp p]
      | none => []) ++ [Ev.unpin 0])

/-- The merge cascade of `ExtendibleHashTable::Remove`, instrumented with its
buffer-pool events.  Loop body (source order): unpin the current bucket, call
`Merge` (breaking on failure), re-read the directory under its wrapper,
shrink if possible, recompute the bucket page id and re-fetch it.  Returns
the final state, the page id the epilogue unpins, and the events. -/
def removeLoopT (cap : Nat) (hf : Nat → Nat) :
    Nat → HT → Nat → Nat → HT × Nat × List Ev
  | 0, s, _k, pid => (s, pid, [])
  | fuel + 1, s, k, pid =>
    if isEmpty cap (getPage s pid) then
      let m := mergeF hf s.dir k
      if m.1 then
        let s1 : HT := { s with dir := if canShrink m.2.1 then shrinkDir m.2.1 else m.2.1 }
        let pid1 := keyToPageId hf s1.dir k
        let r := removeLoopT cap hf fuel s1 k pid1
        (r.1, r.2.1,
          Ev.unpin pid :: (mergeTrace m ++ [Ev.fetch 0, Ev.unpin 0, Ev.fetch pid1] ++ r.2.2))
      else (s, pid, Ev.unpin pid :: mergeTrace m)
    else (s, pid, [])

/-- `ExtendibleHashTable::Remove`, instrumented: resolve the bucket under the
directory wrapper, fetch it, run the bucket remove; on success run the merge
cascade and unpin whatever bucket page is current at exit; on failure unpin
and return false. -/
def tableRemoveT (cap : Nat) (hf : Nat → Nat) (fuel : Nat) (s : HT) (k v : Nat) :
    Bool × HT × List Ev :=
  let pid := keyToPageId hf s.dir k
  let hdr := [Ev.fetch 0, Ev.unpin 0, Ev.fetch pid]
  match bucketRemove cap (getPage s pid) k v with
  | (false, _b) => (false, s, hdr ++ [Ev.unpin pid])
  | (true, b2) =>
    let s1 := setPage s pid b2
    let r := removeLoopT cap hf fuel s1 k pid
    (true, r.1, hdr ++ r.2.2 ++ [Ev.unpin r.2.1])

/-- `ExtendibleHashTable::Remove`, result and state only. -/
def tableRemove (cap : Nat) (hf : Nat → Nat) (fuel : Nat) (s : HT) (k v : Nat) :
    Bool × HT :=
  let r := tableRemoveT cap hf fuel s k v
  (r.1, r.2.1)

/-- Run a sequence of `Insert(txn, key, value)` calls, collecting the returned
booleans. -/
def runInserts (cap dirCap : Nat) (hf : Nat → Nat) (fuel : Nat) :
    HT → List (Nat × Nat) → Option (List Bool × HT)
  | s, [] => some ([], s)
  | s, p :: rest =>
    match tableInsert cap dirCap hf fuel s p.1 p.2 with
    | none => none
    | some (r, s1) =>
      match runInserts cap dirCap hf fuel s1 rest with
      | none => none
      | some (rs, sf) => some (r :: rs, sf)

/-- Bucket-page operations, for the reachable-state invariant claim. -/
inductive BOp where
  | ins : Nat → Nat → BOp
  | rem : Nat → Nat → BOp
  | reorg : BOp

/-- Apply one bucket-page operation (`none` = `assert` abort). -/
def applyBOp (cap : Nat) (b : Bucket) : BOp → Option Bucket
  | .ins k v => (bucketInsert cap b k v).map (·.2)
  | .rem k v => some (bucketRemove cap b k v).2
  | .reorg => some (reOrganize cap b)

/-- Run a sequence of bucket-page operations. -/
def runBOps (cap : Nat) : Bucket → List BOp → Option Bucket
  | b, [] => some b
  | b, op :: rest =>
    match applyBOp cap b op with
    | none => none
    | some b1 => runBOps cap b1 rest

/-- `LRUReplacer` state: `list_`, front = least recently unpinned.  The
`iterator_` vector only caches membership (`iterator_[f] == list_.end()` iff
`f ∉ list_`), so it is folded into the list. -/
structure LRU where
  list : List Nat

/-- `LRUReplacer::Unpin`: frames already present are left untouched (their
position is not refreshed); new frames go to the back. -/
def lruUnpin (s : LRU) (f : Nat) : LRU :=
  if f ∈ s.list then s else ⟨s.list ++ [f]⟩

/-- `LRUReplacer::Pin`: erase the frame if present. -/
def lruPin (s : LRU) (f : Nat) : LRU :=
  ⟨s.list.erase f⟩

/-- `LRUReplacer::Victim`: pop and return the front. -/
def lruVictim (s : LRU) : Option Nat × LRU :=
  match s.list with
  | [] => (none, s)
  | a :: r => (some a, ⟨r⟩)

/-- Replacer operations. -/
inductive LOp where
  | pin : Nat → LOp
  | unpin : Nat → LOp
  | victim : LOp

/-- One replacer step (the victim's output frame is discarded). -/
def lruStep (s : LRU) : LOp → LRU
  | .pin f => lruPin s f
  | .unpin f => lruUnpin s f
  | .victim => (lruVictim s).2

/-- Run a replacer trace. -/
def lruRun : List LOp → LRU → LRU
  | [], s => s
  | op :: rest, s => lruRun rest (lruStep s op)

/-- Ghost run of the replacer with each list entry tagged by the index of the
`Unpin` that inserted it ("its surviving unpin"). -/
def lruStepT (st : List (Nat × Nat)) (t : Nat) : LOp → List (Nat × Nat)
  | .pin f => st.eraseP fun p => p.1 == f
  | .unpin f => if f ∈ st.map Prod.fst then st else st ++ [(f, t)]
  | .victim => st.tail

/-- Run the ghost replacer, `t` counting operations processed so far. -/
def lruRunT : List LOp → List (Nat × Nat) → Nat → List (Nat × Nat)
  | [], st, _t => st
  | op :: rest, st, t => lruRunT rest (lruStepT st t op) (t + 1)

/-- Concrete scenario state: `BUCKET_ARRAY_SIZE = 1`, `DIRECTORY_ARRAY_SIZE =
4`, identity hash; the table after a successful `Insert(0, 5)` on a fresh
table (page 1 holds the single entry, the bucket is full). -/
def exS1 : HT := ((tableInsert 1 4 (fun x => x) 2 initHT 0 5).getD (true, initHT)).2

/-- Concrete directory at `global_depth = 1` with two distinct buckets:
slot 0 → page 10, slot 1 → page 20, both at local depth 1. -/
def exDir : DirPage :=
  ⟨1, fun i => if i = 0 then 10 else if i = 1 then 20 else 0, fun _ => 1⟩

/-- Concrete directory at `global_depth = 1`, both slots at local depth 1,
slot 0 → page 5 and slot 1 → page 6 (a merge-eligible configuration). -/
def exDir2 : DirPage :=
  ⟨1, fun i => if i = 0 then 5 else if i = 1 then 6 else 0,
    fun i => if i < 2 then 1 else 0⟩

/-- Concrete state for the C4 witness: one bucket (page 1, capacity 2)
holding the single entry `(0, 5)` in slot 0. -/
def exB : Bucket := ⟨fun i => decide (i < 1), fun i => decide (i < 1), fun _ => (0, 5)⟩

/-- Table state around `exB`. -/
def exS3 : HT := ⟨⟨0, fun i => if i = 0 then 1 else 0, fun _ => 0⟩, [zeroBucket, exB]⟩

/-- The state invariant of a run whose inserts all return true: the directory
never changed from its initial single-slot form, the sole bucket page (id 1)
satisfies the bitmap invariant, and its live entries are (a permutation of)
the accumulated inserted pairs. -/
def c1Inv (cap : Nat) (s : HT) (acc : List (Nat × Nat)) : Prop :=
  s.dir = initHT.dir ∧ ∃ b, s.pages = [zeroBucket, b] ∧ bucketInv cap b
    ∧ (entries cap b).Perm acc

/-- Modelled from the spec (§3 directory invariants, as checked by
`VerifyIntegrity`): slots sharing a page share a local depth; the slots
pointing at slot `i`'s page are exactly those agreeing with `i` on the low
`local_depth[i]` bits; local depths are bounded by the global depth. -/
def dirInvB (d : DirPage) : Bool :=
  (List.range (dirSize d)).all fun i => (List.range (dirSize d)).all fun j =>
    decide ((d.bucketPageId i = d.bucketPageId j → d.localDepth i = d.localDepth j)
      ∧ (d.bucketPageId j = d.bucketPageId i
          ↔ j % 2 ^ d.localDepth i = i % 2 ^ d.localDepth i)
      ∧ d.localDepth i ≤ d.globalDepth)

end Bustub

namespace Bustub

theorem entriesOn_append (b : Bucket) (l1 l2 : List Nat) :
    entriesOn b (l1 ++ l2) = entriesOn b l1 ++ entriesOn b l2 := by
  simp [entriesOn]

theorem entriesOn_congr {b1 b2 : Bucket} {l : List Nat}
    (h : ∀ x ∈ l, b1.readable x = b2.readable x ∧ b1.data x = b2.data x) :
    entriesOn b1 l = entriesOn b2 l := by
  induction l with
  | nil => rfl
  | cons a l ih =>
    have ha := h a (List.mem_cons_self a l)
    simp only [entriesOn, List.filterMap_cons] at *
    rw [ha.1, ha.2, ih fun x hx => h x (List.mem_cons_of_mem a hx)]

theorem entriesOn_all_readable (b : Bucket) (l : List Nat)
    (h : ∀ x ∈ l, b.readable x = true) :
    entriesOn b l = l.map b.data := by
  induction l with
  | nil => rfl
  | cons a l ih =>
    simp only [entriesOn, List.filterMap_cons, h a (List.mem_cons_self a l), if_pos,
      List.map_cons]
    exact congrArg _ (ih fun x hx => h x (List.mem_cons_of_mem a hx))

theorem entriesOn_none_readable (b : Bucket) (l : List Nat)
    (h : ∀ x ∈ l, b.readable x = false) :
    entriesOn b l = [] := by
  induction l with
  | nil => rfl
  | cons a l ih =>
    simp only [entriesOn, List.filterMap_cons, h a (List.mem_cons_self a l)]
    exact ih fun x hx => h x (List.mem_cons_of_mem a hx)

theorem entries_eq_entriesOn (cap : Nat) (b : Bucket) :
    entries cap b = entriesOn b (List.range cap) := rfl

theorem range_split (e cap : Nat) (he : e ≤ cap) :
    List.range cap = List.range e ++ List.range' e (cap - e) := by
  rw [List.range_eq_range', List.range_eq_range']
  have h := List.range'_append 0 e (cap - e) 1
  simp only [Nat.zero_add, Nat.mul_one, Nat.one_mul] at h
  rw [Nat.sub_add_cancel he] at h
  exact h.symm

/-- Entries ignore the tail beyond the readable region. -/
theorem entries_eq_entriesOn_range (cap : Nat) (b : Bucket) (e : Nat) (he : e ≤ cap)
    (hro : ∀ i, b.readable i = true → i < e) :
    entries cap b = entriesOn b (List.range e) := by
  rw [entries_eq_entriesOn, range_split e cap he, entriesOn_append]
  have : entriesOn b (List.range' e (cap - e)) = [] := by
    refine entriesOn_none_readable _ _ fun x hx => ?_
    have hex : e ≤ x := (List.mem_range'_1.mp hx).1
    cases hr : b.readable x with
    | false => rfl
    | true => exact absurd (hro x hr) (by omega)
  rw [this, List.append_nil]

theorem clearFrom_spec : ∀ (fuel : Nat) (b : Bucket) (i : Nat),
    (∀ x, (clearFrom fuel b i).occupied x
      = if i ≤ x ∧ x < i + fuel then false else b.occupied x)
    ∧ (∀ x, (clearFrom fuel b i).readable x
      = if i ≤ x ∧ x < i + fuel then false else b.readable x)
    ∧ (∀ x, (clearFrom fuel b i).data x = b.data x)
  | 0, b, i => by
    refine ⟨fun x => ?_, fun x => ?_, fun x => rfl⟩ <;>
      simp only [clearFrom] <;> rw [if_neg (by omega)]
  | fuel + 1, b, i => by
    obtain ⟨ho, hr, hd⟩ := clearFrom_spec fuel (setUnreadable (setUnoccupied b i) i) (i + 1)
    refine ⟨fun x => ?_, fun x => ?_, fun x => (hd x).trans rfl⟩
    · rw [show clearFrom (fuel + 1) b i
        = clearFrom fuel (setUnreadable (setUnoccupied b i) i) (i + 1) from rfl, ho x]
      simp only [setUnreadable, setUnoccupied]
      by_cases h1 : i + 1 ≤ x ∧ x < i + 1 + fuel
      · rw [if_pos h1, if_pos (by omega)]
      · rw [if_neg h1]
        by_cases h2 : x = i
        · rw [if_pos h2, if_pos (by omega)]
        · rw [if_neg h2, if_neg (by omega)]
    · rw [show clearFrom (fuel + 1) b i
        = clearFrom fuel (setUnreadable (setUnoccupied b i) i) (i + 1) from rfl, hr x]
      simp only [setUnreadable, setUnoccupied]
      by_cases h1 : i + 1 ≤ x ∧ x < i + 1 + fuel
      · rw [if_pos h1, if_pos (by omega)]
      · rw [if_neg h1]
        by_cases h2 : x = i
        · rw [if_pos h2, if_pos (by omega)]
        · rw [if_neg h2, if_neg (by omega)]

/-- Loop invariant proof for the copy-down scan of `ReOrganize`, relative to
the original bucket `b` with occupied prefix `e`. -/
theorem reorgScan_go (cap e : Nat) (b : Bucket) (he : e ≤ cap)
    (hocc : ∀ x, b.occupied x = decide (x < e))
    (hro : ∀ x, b.readable x = true → x < e) :
    ∀ fuel bc i t, fuel + i = cap → i ≤ e → t ≤ i →
      (∀ x, bc.occupied x = b.occupied x) →
      (∀ x, i ≤ x → bc.readable x = b.readable x ∧ bc.data x = b.data x) →
      (List.range t).map bc.data = entriesOn b (List.range i) →
      (∀ x, x < t → bc.readable x = true) →
      ∃ bf,
        reorgScan fuel bc i t = (bf, (entriesOn b (List.range e)).length)
        ∧ (∀ x, bf.occupied x = b.occupied x)
        ∧ (List.range ((entriesOn b (List.range e)).length)).map bf.data
            = entriesOn b (List.range e)
        ∧ (∀ x, x < (entriesOn b (List.range e)).length → bf.readable x = true)
        ∧ (∀ x, e ≤ x → bf.readable x = b.readable x) := by
  intro fuel
  induction fuel with
  | zero =>
    intro bc i t hfi hie hti hoc hhi hmap hrd
    obtain rfl : i = e := by omega
    have ht : t = (entriesOn b (List.range i)).length := by
      have := congrArg List.length hmap
      simpa using this
    refine ⟨bc, ?_, hoc, ?_, ?_, fun x hx => (hhi x hx).1⟩
    · simp only [reorgScan, ← ht]
    · rw [← ht]; exact hmap
    · rw [← ht]; exact hrd
  | succ fuel ih =>
    intro bc i t hfi hie hti hoc hhi hmap hrd
    rcases Nat.lt_or_ge i e with hlt | hge
    · -- occupied slot: step
      have hocc_i : bc.occupied i = true := by
        rw [hoc i, hocc i]; simp [hlt]
      have hread_i : bc.readable i = b.readable i := (hhi i (Nat.le_refl i)).1
      have hdata_i : bc.data i = b.data i := (hhi i (Nat.le_refl i)).2
      have hent : entriesOn b (List.range (i + 1))
          = entriesOn b (List.range i)
            ++ (if b.readable i then [b.data i] else []) := by
        rw [List.range_succ, entriesOn_append]
        simp only [entriesOn, List.filterMap_cons, List.filterMap_nil]
        cases hb : b.readable i <;> simp
      cases hr : b.readable i with
      | true =>
        have hstep : reorgScan (fuel + 1) bc i t
            = reorgScan fuel (setReadable (setData bc t (bc.data i)) t) (i + 1) (t + 1) := by
          simp only [reorgScan, hocc_i, hread_i, hr, Bool.not_true, Bool.false_eq_true,
            if_false, if_true]
        set bc' := setReadable (setData bc t (bc.data i)) t with hbc'
        have hoc' : ∀ x, bc'.occupied x = b.occupied x := fun x => hoc x
        have hhi' : ∀ x, i + 1 ≤ x → bc'.readable x = b.readable x ∧ bc'.data x = b.data x := by
          intro x hx
          have hxt : x ≠ t := by omega
          constructor
          · show (if x = t then true else bc.readable x) = _
            rw [if_neg hxt]; exact (hhi x (by omega)).1
          · show (if x = t then bc.data i else bc.data x) = _
            rw [if_neg hxt]; exact (hhi x (by omega)).2
        have hmap' : (List.range (t + 1)).map bc'.data = entriesOn b (List.range (i + 1)) := by
          rw [hent, hr, if_pos rfl, List.range_succ, List.map_append]
          have h1 : (List.range t).map bc'.data = (List.range t).map bc.data := by
            refine List.map_congr_left fun x hx => ?_
            have : x ≠ t := by simp at hx; omega
            show (if x = t then bc.data i else bc.data x) = bc.data x
            rw [if_neg this]
          have h2 : bc'.data t = b.data i := by
            show (if t = t then bc.data i else bc.data t) = b.data i
            rw [if_pos rfl, hdata_i]
          rw [h1, hmap, List.map_cons, List.map_nil, h2]
        have hrd' : ∀ x, x < t + 1 → bc'.readable x = true := by
          intro x hx
          show (if x = t then true else bc.readable x) = true
          by_cases hxt : x = t
          · rw [if_pos hxt]
          · rw [if_neg hxt]; exact hrd x (by omega)
        rw [hstep]
        exact ih bc' (i + 1) (t + 1) (by omega) (by omega) (by omega) hoc' hhi' hmap' hrd'
      | false =>
        have hstep : reorgScan (fuel + 1) bc i t = reorgScan fuel bc (i + 1) t := by
          simp only [reorgScan, hocc_i, hread_i, hr, Bool.not_true, Bool.false_eq_true,
            if_false]
        have hmap' : (List.range t).map bc.data = entriesOn b (List.range (i + 1)) := by
          rw [hent, hr]; simpa using hmap
        rw [hstep]
        exact ih bc (i + 1) t (by omega) (by omega) (by omega) hoc
          (fun x hx => hhi x (by omega)) hmap' hrd
    · -- i = e: first unoccupied slot, the scan stops
      obtain rfl : i = e := by omega
      have hocc_i : bc.occupied i = false := by
        rw [hoc i, hocc i]; simp
      have hstep : reorgScan (fuel + 1) bc i t = (bc, t) := by
        simp only [reorgScan, hocc_i, Bool.not_false, if_true]
      have ht : t = (entriesOn b (List.range i)).length := by
        have := congrArg List.length hmap
        simpa using this
      refine ⟨bc, ?_, hoc, ?_, ?_, fun x hx => (hhi x hx).1⟩
      · rw [hstep, ht]
      · rw [← ht]; exact hmap
      · rw [← ht]; exact hrd

/-- `ReOrganize` compacts: the result has the live entries (unchanged, in
order) in a dense readable prefix of length `(entries cap b).length`, with
`occupied` and `readable` agreeing there and cleared beyond. -/
theorem reOrganize_spec (cap : Nat) (b : Bucket) (e : Nat) (h : bucketInvE cap b e) :
    (∀ x, (reOrganize cap b).occupied x = decide (x < (entries cap b).length))
    ∧ (∀ x, (reOrganize cap b).readable x = decide (x < (entries cap b).length))
    ∧ entries cap (reOrganize cap b) = entries cap b
    ∧ (entries cap b).length ≤ e := by
  obtain ⟨he, hocc, hro⟩ := h
  have hent : entries cap b = entriesOn b (List.range e) :=
    entries_eq_entriesOn_range cap b e he hro
  obtain ⟨bf, hscan, hof, hmapf, hrdf, hrhi⟩ :=
    reorgScan_go cap e b he hocc hro cap b 0 0 (by omega) (by omega) (by omega)
      (fun x => rfl) (fun x _ => ⟨rfl, rfl⟩) (by simp [entriesOn]) (by omega)
  obtain ⟨t, hT⟩ : ∃ t, (entriesOn b (List.range e)).length = t := ⟨_, rfl⟩
  rw [hT] at hscan hmapf hrdf
  have hentlen : (entries cap b).length = t := by rw [hent, hT]
  have htle : t ≤ e := by
    rw [← hT]
    have : (entriesOn b (List.range e)).length ≤ (List.range e).length :=
      List.length_filterMap_le _ _
    simpa using this
  have hre : reOrganize cap b = clearFrom (cap - t) bf t := by
    simp only [reOrganize, hscan]
  obtain ⟨hco, hcr, hcd⟩ := clearFrom_spec (cap - t) bf t
  have hoccF : ∀ x, (reOrganize cap b).occupied x = decide (x < t) := by
    intro x
    rw [hre, hco x]
    by_cases h1 : t ≤ x ∧ x < t + (cap - t)
    · rw [if_pos h1]; simp; omega
    · rw [if_neg h1, hof x, hocc x]
      rcases Nat.lt_or_ge x t with hx | hx
      · simp only [decide_eq_decide]; omega
      · have hxcap : cap ≤ x := by omega
        simp only [decide_eq_decide]; omega
  have hrdF : ∀ x, (reOrganize cap b).readable x = decide (x < t) := by
    intro x
    rw [hre, hcr x]
    by_cases h1 : t ≤ x ∧ x < t + (cap - t)
    · rw [if_pos h1]; simp; omega
    · rw [if_neg h1]
      rcases Nat.lt_or_ge x t with hx | hx
      · rw [hrdf x hx]; simp [hx]
      · have hxcap : cap ≤ x := by omega
        have hxe : e ≤ x := by omega
        rw [hrhi x hxe]
        cases hb : b.readable x with
        | false => simp; omega
        | true => exact absurd (hro x hb) (by omega)
  refine ⟨fun x => by rw [hentlen]; exact hoccF x,
    fun x => by rw [hentlen]; exact hrdF x, ?_, by rw [hentlen]; exact htle⟩
  -- entries of the result
  rw [entries_eq_entriesOn, range_split t cap (by omega), entriesOn_append]
  have h2 : entriesOn (reOrganize cap b) (List.range' t (cap - t)) = [] := by
    refine entriesOn_none_readable _ _ fun x hx => ?_
    have hxt : t ≤ x := (List.mem_range'_1.mp hx).1
    rw [hrdF x]; simp; omega
  have h1 : entriesOn (reOrganize cap b) (List.range t)
      = (List.range t).map (reOrganize cap b).data := by
    refine entriesOn_all_readable _ _ fun x hx => ?_
    have hxt : x < t := List.mem_range.mp hx
    rw [hrdF x]; simp [hxt]
  have h3 : (List.range t).map (reOrganize cap b).data = (List.range t).map bf.data := by
    refine List.map_congr_left fun x _ => ?_
    rw [hre, hcd x]
  rw [h1, h2, h3, List.append_nil, hmapf, hent]

/-- Writing a fresh entry into a non-readable slot adds exactly that entry to
the live multiset. -/
theorem entries_set_slot (cap : Nat) (b : Bucket) (j : Nat) (k v : Nat)
    (hj : j < cap) (hnr : b.readable j = false) :
    (entries cap (setReadable (setData (setOccupied b j) j (k, v)) j)).Perm
      ((k, v) :: entries cap b) := by
  set b2 := setReadable (setData (setOccupied b j) j (k, v)) j with hb2
  have hperm : (List.range cap).Perm (j :: (List.range cap).erase j) :=
    List.perm_cons_erase (List.mem_range.mpr hj)
  have hne : ∀ x ∈ (List.range cap).erase j, x ≠ j := by
    intro x hx
    exact ((List.nodup_range cap).mem_erase_iff.mp hx).1
  have hb2j : b2.readable j = true := by
    show (if j = j then true else _) = true
    rw [if_pos rfl]
  have hb2dj : b2.data j = (k, v) := by
    show (if j = j then (k, v) else _) = (k, v)
    rw [if_pos rfl]
  have hcongr : entriesOn b2 ((List.range cap).erase j) = entriesOn b ((List.range cap).erase j) := by
    refine entriesOn_congr fun x hx => ?_
    have hxj := hne x hx
    constructor
    · show (if x = j then true else b.readable x) = b.readable x
      rw [if_neg hxj]
    · show (if x = j then (k, v) else b.data x) = b.data x
      rw [if_neg hxj]
  have h1 : List.Perm (entriesOn b2 (List.range cap))
      (entriesOn b2 (j :: (List.range cap).erase j)) := hperm.filterMap _
  have h4 : List.Perm (entriesOn b (j :: (List.range cap).erase j))
      (entriesOn b (List.range cap)) := (hperm.filterMap _).symm
  have h2 : entriesOn b2 (j :: (List.range cap).erase j)
      = (k, v) :: entriesOn b2 ((List.range cap).erase j) := by
    simp only [entriesOn, List.filterMap_cons, hb2j, if_pos, hb2dj]
  have h3 : entriesOn b (j :: (List.range cap).erase j)
      = entriesOn b ((List.range cap).erase j) := by
    simp [entriesOn, List.filterMap_cons, hnr]
  show List.Perm (entriesOn b2 (List.range cap)) ((k, v) :: entriesOn b (List.range cap))
  refine h1.trans ?_
  rw [h2, hcongr]
  rw [h3] at h4
  exact List.Perm.cons _ h4

/-- With a dense readable prefix of length `t`, the bucket holds exactly `t`
entries. -/
theorem entries_length_strong (cap t : Nat) (b : Bucket) (ht : t ≤ cap)
    (hrd : ∀ x, b.readable x = decide (x < t)) :
    (entries cap b).length = t := by
  have h1 : entries cap b = entriesOn b (List.range t) :=
    entries_eq_entriesOn_range cap b t ht fun i hi => by
      have := hrd i; rw [hi] at this; simpa using this.symm
  have h2 : entriesOn b (List.range t) = (List.range t).map b.data :=
    entriesOn_all_readable _ _ fun x hx => by
      rw [hrd x]; simpa using List.mem_range.mp hx
  rw [h1, h2]; simp

/-- The insert scan, under the bucket invariant, never reaches the `assert`:
it reports a duplicate (with a witness slot) or a usable non-readable slot
inside or just past the occupied prefix. -/
theorem insertScan_spec (e : Nat) (b : Bucket) (k v : Nat)
    (hocc : ∀ x, b.occupied x = decide (x < e))
    (hro : ∀ x, b.readable x = true → x < e) :
    ∀ fuel i occ, i ≤ e + 1 → fuel + i ≥ e + 1 →
      (occ = none → i ≤ e) →
      (∀ j, occ = some j → j ≤ e ∧ b.readable j = false) →
      (i = e + 1 → occ.isSome = true) →
      (∃ x, insertScan b k v fuel i occ = .dup ∧ b.readable x = true ∧ b.data x = (k, v))
      ∨ (∃ j, insertScan b k v fuel i occ = .slot j ∧ j ≤ e ∧ b.readable j = false) := by
  intro fuel
  induction fuel with
  | zero =>
    intro i occ hie hfi hnone hsome hend
    cases occ with
    | none => exact absurd (hnone rfl) (by omega)
    | some j =>
      right
      exact ⟨j, rfl, hsome j rfl⟩
  | succ fuel ih =>
    intro i occ hie hfi hnone hsome hend
    rcases Nat.lt_or_ge i e with hlt | hge
    · -- occupied slot
      have hocc_i : b.occupied i = true := by rw [hocc i]; simp [hlt]
      have hstep : insertScan b k v (fuel + 1) i occ
          = if b.readable i then
              if (b.data i).1 == k && (b.data i).2 == v then .dup
              else insertScan b k v fuel (i + 1) occ
            else insertScan b k v fuel (i + 1) (some (occ.getD i)) := by
        simp only [insertScan, hocc_i, Bool.not_true, Bool.false_and, Bool.false_eq_true,
          if_false]
      cases hr : b.readable i with
      | true =>
        rw [hstep, if_pos hr]
        cases hm : ((b.data i).1 == k && (b.data i).2 == v) with
        | true =>
          rw [if_pos rfl]
          left
          refine ⟨i, rfl, hr, ?_⟩
          simp only [Bool.and_eq_true, beq_iff_eq] at hm
          exact Prod.ext hm.1 hm.2
        | false =>
          rw [if_neg (by simp [hm])]
          exact ih (i + 1) occ (by omega) (by omega) (fun h => by have := hnone h; omega)
            hsome (fun h => absurd h (by omega))
      | false =>
        rw [hstep, if_neg (by simp [hr])]
        refine ih (i + 1) (some (occ.getD i)) (by omega) (by omega) (by simp)
          (fun j hj => ?_) (fun _ => rfl)
        cases occ with
        | none =>
          simp only [Option.getD_none, Option.some.injEq] at hj
          exact hj ▸ ⟨by omega, hr⟩
        | some j0 =>
          simp only [Option.getD_some, Option.some.injEq] at hj
          exact hj ▸ hsome j0 rfl
    · -- at or past the end of the occupied prefix
      have hocc_i : b.occupied i = false := by rw [hocc i]; simp; omega
      cases occ with
      | some j =>
        have hstep : insertScan b k v (fuel + 1) i (some j) = .slot j := by
          simp only [insertScan, hocc_i, Bool.not_false, Option.isSome_some, Bool.and_true,
            if_true]
        right
        exact ⟨j, hstep, hsome j rfl⟩
      | none =>
        have hi_e : i = e := by have := hnone rfl; omega
        subst hi_e
        have hr : b.readable i = false := by
          cases hr : b.readable i with
          | false => rfl
          | true => exact absurd (hro i hr) (by omega)
        have hstep : insertScan b k v (fuel + 1) i none
            = insertScan b k v fuel (i + 1) (some i) := by
          simp only [insertScan, hocc_i, Bool.not_false, Option.isSome_none, Bool.and_false,
            Bool.false_eq_true, if_false, hr, Option.getD_none]
        rw [hstep]
        exact ih (i + 1) (some i) (by omega) (by omega) (by simp)
          (fun j hj => by
            simp only [Option.some.injEq] at hj
            exact hj ▸ ⟨by omega, hr⟩)
          (fun _ => rfl)

/-- Master case analysis of `HashTableBucketPage::Insert` on an
invariant-satisfying page: the `assert` never fires; a `false` return leaves
the live multiset exactly unchanged, keeps the invariant, and a retry on the
result fails again with unchanged entries; a `true` return keeps the
invariant and adds exactly `(k, v)` to the live multiset. -/
theorem bucketInsert_cases (cap : Nat) (b : Bucket) (e : Nat) (k v : Nat)
    (hcap : 0 < cap) (h : bucketInvE cap b e) :
    (∃ b2, bucketInsert cap b k v = some (false, b2)
      ∧ entries cap b2 = entries cap b
      ∧ bucketInv cap b2
      ∧ ∃ b3, bucketInsert cap b2 k v = some (false, b3) ∧ entries cap b3 = entries cap b2)
    ∨ (∃ b2, bucketInsert cap b k v = some (true, b2)
      ∧ (entries cap b2).Perm ((k, v) :: entries cap b)
      ∧ bucketInv cap b2) := by
  obtain ⟨he, hocc, hro⟩ := h
  by_cases hfull : b.occupied (cap - 1) = true
  · -- front check: compact first
    obtain ⟨ro, rr, rent, rlen⟩ := reOrganize_spec cap b e ⟨he, hocc, hro⟩
    obtain ⟨t, hT⟩ : ∃ t, (entries cap b).length = t := ⟨_, rfl⟩
    rw [hT] at ro rr rlen
    have hb1inv : bucketInvE cap (reOrganize cap b) t :=
      ⟨by omega, ro, fun i hi => by rw [rr i] at hi; simpa using hi⟩
    have hunfold : bucketInsert cap b k v
        = (if (reOrganize cap b).occupied (cap - 1) then some (false, reOrganize cap b)
          else
            match insertScan (reOrganize cap b) k v cap 0 none with
            | .dup => some (false, reOrganize cap b)
            | .noSlot => none
            | .slot i =>
              some (true, setReadable (setData (setOccupied (reOrganize cap b) i) i (k, v)) i)) := by
      simp only [bucketInsert, hfull, if_true]
    rcases Nat.lt_or_ge (cap - 1) t with hct | hct
    · -- still full after compaction: t = cap
      have ht_cap : t = cap := by omega
      have hfull1 : (reOrganize cap b).occupied (cap - 1) = true := by
        rw [ro]; simp [hct]
      left
      refine ⟨reOrganize cap b, by rw [hunfold, if_pos hfull1], rent, ⟨t, hb1inv⟩, ?_⟩
      -- retry: compacting the already-compact full page keeps it full
      have hlen1 : (entries cap (reOrganize cap b)).length = t := by rw [rent, hT]
      obtain ⟨ro2, rr2, rent2, _⟩ := reOrganize_spec cap (reOrganize cap b) t hb1inv
      rw [hlen1] at ro2 rr2
      have hfull2 : (reOrganize cap (reOrganize cap b)).occupied (cap - 1) = true := by
        rw [ro2]; simp [hct]
      refine ⟨reOrganize cap (reOrganize cap b), ?_, rent2⟩
      simp only [bucketInsert, hfull1, if_true, hfull2]
    · -- compaction opened space: scan the compacted page
      have hnotfull1 : (reOrganize cap b).occupied (cap - 1) = false := by
        rw [ro]; simp; omega
      have ht_lt : t < cap := by omega
      have hscan := insertScan_spec t (reOrganize cap b) k v ro
        (fun x hx => by rw [rr x] at hx; simpa using hx) cap 0 none
        (by omega) (by omega) (fun _ => by omega)
        (fun j hj => by cases hj) (fun hh => by omega)
      rw [hunfold, if_neg (by simp [hnotfull1])]
      rcases hscan with ⟨x, hdup, _, _⟩ | ⟨j, hslot, hjle, hjnr⟩
      · left
        rw [hdup]
        refine ⟨reOrganize cap b, rfl, rent, ⟨t, hb1inv⟩, ?_⟩
        refine ⟨reOrganize cap b, ?_, rfl⟩
        simp only [bucketInsert, hnotfull1, Bool.false_eq_true, if_false, hdup]
      · right
        rw [hslot]
        refine ⟨_, rfl, ?_, ?_⟩
        · have := entries_set_slot cap (reOrganize cap b) j k v (by omega) hjnr
          exact this.trans (List.Perm.cons _ (by rw [rent]))
        · refine ⟨if j < t then t else t + 1, ?_, fun x => ?_, fun x hx => ?_⟩
          · by_cases hj : j < t <;> simp [hj] <;> omega
          · show (if x = j then true else (reOrganize cap b).occupied x) = _
            by_cases hxj : x = j
            · rw [if_pos hxj]
              by_cases hj : j < t <;> simp [hj] <;> omega
            · rw [if_neg hxj, ro x]
              by_cases hj : j < t
              · simp [hj]
              · simp only [hj, if_false]
                simp only [decide_eq_decide]
                omega
          · by_cases hxj : x = j
            · subst hxj
              by_cases hj : x < t <;> simp [hj] <;> omega
            · have : (reOrganize cap b).readable x = true := by
                have hx' : (if x = j then true else (reOrganize cap b).readable x) = true := hx
                rwa [if_neg hxj] at hx'
              rw [rr x] at this
              have : x < t := by simpa using this
              by_cases hj : j < t <;> simp [hj] <;> omega
  · -- bucket not full at the tail: no compaction
    have hfull' : b.occupied (cap - 1) = false := by
      cases hx : b.occupied (cap - 1) with
      | false => rfl
      | true => exact absurd hx hfull
    have he_lt : e < cap := by
      have := hocc (cap - 1)
      rw [hfull'] at this
      have : ¬(cap - 1 < e) := by simpa using this.symm
      omega
    have hunfold : bucketInsert cap b k v
        = (match insertScan b k v cap 0 none with
          | .dup => some (false, b)
          | .noSlot => none
          | .slot i => some (true, setReadable (setData (setOccupied b i) i (k, v)) i)) := by
      simp only [bucketInsert, hfull', Bool.false_eq_true, if_false]
    have hscan := insertScan_spec e b k v hocc hro cap 0 none
      (by omega) (by omega) (fun _ => by omega) (fun j hj => by cases hj) (fun hh => by omega)
    rw [hunfold]
    rcases hscan with ⟨x, hdup, _, _⟩ | ⟨j, hslot, hjle, hjnr⟩
    · left
      rw [hdup]
      refine ⟨b, rfl, rfl, ⟨e, he, hocc, hro⟩, ?_⟩
      refine ⟨b, ?_, rfl⟩
      simp only [bucketInsert, hfull', Bool.false_eq_true, if_false, hdup]
    · right
      rw [hslot]
      refine ⟨_, rfl, entries_set_slot cap b j k v (by omega) hjnr, ?_⟩
      refine ⟨if j < e then e else e + 1, ?_, fun x => ?_, fun x hx => ?_⟩
      · by_cases hj : j < e <;> simp [hj] <;> omega
      · show (if x = j then true else b.occupied x) = _
        by_cases hxj : x = j
        · rw [if_pos hxj]
          by_cases hj : j < e <;> simp [hj] <;> omega
        · rw [if_neg hxj, hocc x]
          by_cases hj : j < e
          · simp [hj]
          · simp only [hj, if_false]
            simp only [decide_eq_decide]
            omega
      · by_cases hxj : x = j
        · subst hxj
          by_cases hj : x < e <;> simp [hj] <;> omega
        · have hx' : b.readable x = true := by
            have : (if x = j then true else b.readable x) = true := hx
            rwa [if_neg hxj] at this
          have := hro x hx'
          by_cases hj : j < e <;> simp [hj] <;> omega

theorem removeScan_some (b : Bucket) (k v : Nat) :
    ∀ fuel i j, removeScan b k v fuel i = some j →
      i ≤ j ∧ j < i + fuel ∧ (∀ x, i ≤ x → x ≤ j → b.occupied x = true)
        ∧ b.readable j = true ∧ b.data j = (k, v)
  | 0, i, j, h => by cases h
  | fuel + 1, i, j, h => by
    rw [removeScan] at h
    cases hocc : b.occupied i with
    | false => rw [hocc] at h; cases h
    | true =>
      rw [hocc] at h
      simp only [Bool.not_true, Bool.false_eq_true, if_false] at h
      cases hc : (b.readable i && (b.data i).1 == k && (b.data i).2 == v) with
      | true =>
        rw [hc, if_pos rfl] at h
        obtain rfl : i = j := Option.some.inj h
        simp only [Bool.and_eq_true, beq_iff_eq] at hc
        refine ⟨Nat.le_refl i, by omega, ?_, hc.1.1, Prod.ext hc.1.2 hc.2⟩
        intro x h1 h2
        obtain rfl : x = i := by omega
        exact hocc
      | false =>
        rw [hc] at h
        simp only [Bool.false_eq_true, if_false] at h
        obtain ⟨h1, h2, h3, h4, h5⟩ := removeScan_some b k v fuel (i + 1) j h
        exact ⟨by omega, by omega,
          fun x hx1 hx2 => by
            rcases Nat.eq_or_lt_of_le hx1 with rfl | hx
            · exact hocc
            · exact h3 x (by omega) hx2,
          h4, h5⟩

theorem removeScan_isSome (b : Bucket) (k v : Nat) :
    ∀ fuel i j, i ≤ j → j < i + fuel →
      (∀ x, i ≤ x → x ≤ j → b.occupied x = true) →
      b.readable j = true → b.data j = (k, v) →
      (removeScan b k v fuel i).isSome = true
  | 0, i, j, h1, h2, _, _, _ => by omega
  | fuel + 1, i, j, h1, h2, h3, h4, h5 => by
    have hocc : b.occupied i = true := h3 i (Nat.le_refl i) h1
    rw [removeScan, hocc]
    simp only [Bool.not_true, Bool.false_eq_true, if_false]
    cases hc : (b.readable i && (b.data i).1 == k && (b.data i).2 == v) with
    | true => simp
    | false =>
      simp only [Bool.false_eq_true, if_false]
      have hij : i ≠ j := by
        intro h
        subst h
        rw [h4, h5] at hc
        simp at hc
      exact removeScan_isSome b k v fuel (i + 1) j (by omega) (by omega)
        (fun x hx1 hx2 => h3 x (by omega) hx2) h4 h5

theorem bucketRemove_inv (cap : Nat) (b : Bucket) (e : Nat) (k v : Nat)
    (h : bucketInvE cap b e) : bucketInvE cap (bucketRemove cap b k v).2 e := by
  obtain ⟨he, hocc, hro⟩ := h
  rw [bucketRemove]
  cases hscan : removeScan b k v cap 0 with
  | none => exact ⟨he, hocc, hro⟩
  | some i =>
    refine ⟨he, fun x => hocc x, fun x hx => ?_⟩
    by_cases hxi : x = i
    · subst hxi
      have : (if x = x then false else b.readable x) = true := hx
      rw [if_pos rfl] at this
      cases this
    · have : (if x = i then false else b.readable x) = true := hx
      rw [if_neg hxi] at this
      exact hro x this

theorem runBOps_inv (cap : Nat) (hcap : 0 < cap) :
    ∀ ops b e, bucketInvE cap b e →
      ∃ b2, runBOps cap b ops = some b2 ∧ bucketInv cap b2
  | [], b, e, h => ⟨b, rfl, e, h⟩
  | op :: rest, b, e, h => by
    cases op with
    | ins k v =>
      rcases bucketInsert_cases cap b e k v hcap h with
        ⟨b2, hins, _, ⟨e2, hinv2⟩, _⟩ | ⟨b2, hins, _, ⟨e2, hinv2⟩⟩ <;>
      · obtain ⟨b3, hrun, hinv3⟩ := runBOps_inv cap hcap rest b2 e2 hinv2
        exact ⟨b3, by simp only [runBOps, applyBOp, hins, Option.map_some]; exact hrun, hinv3⟩
    | rem k v =>
      obtain ⟨b3, hrun, hinv3⟩ :=
        runBOps_inv cap hcap rest (bucketRemove cap b k v).2 e (bucketRemove_inv cap b e k v h)
      exact ⟨b3, by simp only [runBOps, applyBOp]; exact hrun, hinv3⟩
    | reorg =>
      obtain ⟨ro, rr, rent, rlen⟩ := reOrganize_spec cap b e h
      have he := h.1
      have hinv2 : bucketInvE cap (reOrganize cap b) (entries cap b).length :=
        ⟨by omega, ro, fun i hi => by rw [rr i] at hi; simpa using hi⟩
      obtain ⟨b3, hrun, hinv3⟩ := runBOps_inv cap hcap rest (reOrganize cap b) _ hinv2
      exact ⟨b3, by simp only [runBOps, applyBOp]; exact hrun, hinv3⟩

theorem getScan_flag (b : Bucket) (k : Nat) :
    ∀ fuel i f, (getScan b k fuel i f).2 = (f || !(getScan b k fuel i f).1.isEmpty)
  | 0, i, f => by simp [getScan]
  | fuel + 1, i, f => by
    rw [getScan]
    cases hocc : b.occupied i with
    | false => simp
    | true =>
      simp only [Bool.not_true, Bool.false_eq_true, if_false]
      cases hc : (b.readable i && (b.data i).1 == k) with
      | true =>
        simp only [if_pos rfl]
        have := getScan_flag b k fuel (i + 1) true
        simp only [Bool.true_or] at this
        simp [this]
      | false =>
        simp only [Bool.false_eq_true, if_false]
        exact getScan_flag b k fuel (i + 1) f

/-- The get scan, under the bucket invariant, returns exactly the matching
live entries' values, in slot order. -/
theorem getScan_entries (e : Nat) (b : Bucket) (k : Nat)
    (hocc : ∀ x, b.occupied x = decide (x < e))
    (_hro : ∀ x, b.readable x = true → x < e) :
    ∀ fuel i f, fuel + i ≥ e →
      (getScan b k fuel i f).1
        = ((entriesOn b (List.range' i (e - i))).filter fun p => p.1 == k).map Prod.snd := by
  intro fuel
  induction fuel with
  | zero =>
    intro i f hfe
    have : e - i = 0 := by omega
    rw [this]
    simp [getScan, entriesOn]
  | succ fuel ih =>
    intro i f hfe
    rcases Nat.lt_or_ge i e with hlt | hge
    · have hocc_i : b.occupied i = true := by rw [hocc i]; simp [hlt]
      have hrange : List.range' i (e - i) = i :: List.range' (i + 1) (e - (i + 1)) := by
        have h1 : e - i = (e - (i + 1)) + 1 := by omega
        rw [h1, List.range'_succ]
      rw [hrange]
      rcases Bool.eq_false_or_eq_true (b.readable i) with hr | hr
      · -- slot readable
        have hcons : entriesOn b (i :: List.range' (i + 1) (e - (i + 1)))
            = b.data i :: entriesOn b (List.range' (i + 1) (e - (i + 1))) := by
          simp [entriesOn, List.filterMap_cons, hr]
        rw [hcons]
        rcases Bool.eq_false_or_eq_true ((b.data i).1 == k) with hk | hk
        · have hstep : getScan b k (fuel + 1) i f
              = ((b.data i).2 :: (getScan b k fuel (i + 1) true).1,
                 (getScan b k fuel (i + 1) true).2) := by
            rw [getScan, hocc_i, hr, hk]
            simp
          rw [hstep]
          simp only [List.filter_cons, hk, if_pos, List.map_cons]
          exact congrArg _ (ih (i + 1) true (by omega))
        · have hstep : getScan b k (fuel + 1) i f = getScan b k fuel (i + 1) f := by
            rw [getScan, hocc_i, hr, hk]
            simp
          rw [hstep]
          simp only [List.filter_cons, hk]
          exact ih (i + 1) f (by omega)
      · -- slot not readable: the scan skips it, and it holds no entry
        have hstep : getScan b k (fuel + 1) i f = getScan b k fuel (i + 1) f := by
          rw [getScan, hocc_i, hr]
          simp
        have hcons : entriesOn b (i :: List.range' (i + 1) (e - (i + 1)))
            = entriesOn b (List.range' (i + 1) (e - (i + 1))) := by
          simp [entriesOn, List.filterMap_cons, hr]
        rw [hstep, hcons]
        exact ih (i + 1) f (by omega)
    · have hocc_i : b.occupied i = false := by rw [hocc i]; simp; omega
      have h0 : e - i = 0 := by omega
      have hstep : getScan b k (fuel + 1) i f = ([], f) := by
        rw [getScan, hocc_i]
        simp
      rw [hstep, h0]
      simp [entriesOn]

/-- `GetValue` on an invariant-satisfying bucket returns exactly the values
of the live entries matching the key. -/
theorem bucketGetValue_entries (cap e : Nat) (b : Bucket) (k : Nat) (h : bucketInvE cap b e) :
    (bucketGetValue cap b k).1 = ((entries cap b).filter fun p => p.1 == k).map Prod.snd := by
  obtain ⟨he, hocc, hro⟩ := h
  have hs := getScan_entries e b k hocc hro cap 0 false (by omega)
  rw [bucketGetValue, hs, entries_eq_entriesOn_range cap b e he hro, List.range_eq_range']
  simp

/-- C7: `HashTableBucketPage::Remove` returns true iff some slot of the
occupied prefix is readable and holds `(key, value)` (key equality by `cmp`,
value equality native); on success exactly that slot's readable bit is
cleared, with `occupied`, the payload array, and every other readable bit
unchanged; on failure the page is unchanged. -/
theorem c7_bucket_remove_spec (cap : Nat) (b : Bucket) (k v : Nat) :
    ((bucketRemove cap b k v).1 = true ↔
      ∃ i, i < cap ∧ (∀ x, x ≤ i → b.occupied x = true) ∧ b.readable i = true
        ∧ b.data i = (k, v))
    ∧ ((bucketRemove cap b k v).1 = true →
      ∃ i, i < cap ∧ (∀ x, x ≤ i → b.occupied x = true) ∧ b.readable i = true
        ∧ b.data i = (k, v)
        ∧ (bucketRemove cap b k v).2.occupied = b.occupied
        ∧ (bucketRemove cap b k v).2.data = b.data
        ∧ (bucketRemove cap b k v).2.readable i = false
        ∧ ∀ x, x ≠ i → (bucketRemove cap b k v).2.readable x = b.readable x)
    ∧ ((bucketRemove cap b k v).1 = false → (bucketRemove cap b k v).2 = b) := by
  cases hscan : removeScan b k v cap 0 with
  | none =>
    have hb : bucketRemove cap b k v = (false, b) := by
      rw [bucketRemove, hscan]
    rw [hb]
    refine ⟨?_, ?_, fun _ => rfl⟩
    · simp only [Bool.false_eq_true, false_iff]
      rintro ⟨i, hi, hoc, hrd, hdt⟩
      have := removeScan_isSome b k v cap 0 i (Nat.zero_le i) (by omega)
        (fun x _ hx2 => hoc x hx2) hrd hdt
      rw [hscan] at this
      cases this
    · intro h
      cases h
  | some i =>
    have hb : bucketRemove cap b k v = (true, setUnreadable b i) := by
      rw [bucketRemove, hscan]
    obtain ⟨_, hlt, hoc, hrd, hdt⟩ := removeScan_some b k v cap 0 i hscan
    rw [hb]
    refine ⟨?_, fun _ => ?_, fun h => by cases h⟩
    · simp only [true_iff]
      exact ⟨i, by omega, fun x hx => hoc x (Nat.zero_le x) hx, hrd, hdt⟩
    · refine ⟨i, by omega, fun x hx => hoc x (Nat.zero_le x) hx, hrd, hdt, rfl, rfl, ?_, ?_⟩
      · show (if i = i then false else b.readable i) = false
        rw [if_pos rfl]
      · intro x hx
        show (if x = i then false else b.readable x) = b.readable x
        rw [if_neg hx]

/-- C8: from an all-zero page, every state reachable by `Insert`, `Remove`
and `ReOrganize` keeps the occupied bitmap a prefix and keeps every readable
slot occupied (and the `assert` in `Insert` never fires). -/
theorem c8_bucket_bitmap_invariants (cap : Nat) (hcap : 0 < cap) (ops : List BOp) :
    ∃ b, runBOps cap zeroBucket ops = some b
      ∧ (∀ i j, i ≤ j → b.occupied i = false → b.occupied j = false)
      ∧ ∀ i, b.readable i = true → b.occupied i = true := by
  have hinv0 : bucketInvE cap zeroBucket 0 :=
    ⟨Nat.zero_le _, fun i => by simp [zeroBucket], fun i hi => by simp [zeroBucket] at hi⟩
  obtain ⟨b, hrun, e, he, hocc, hro⟩ := runBOps_inv cap hcap ops zeroBucket 0 hinv0
  refine ⟨b, hrun, ?_, ?_⟩
  · intro i j hij hoi
    rw [hocc] at *
    simp only [decide_eq_false_iff_not] at hoi
    simp only [decide_eq_false_iff_not]
    omega
  · intro i hr
    rw [hocc]
    have := hro i hr
    simp [this]

/-- C8 witness: a concrete run at capacity 4. -/
theorem c8_bucket_bitmap_invariants_witness :
    0 < 4 ∧ ∃ b, runBOps 4 zeroBucket [BOp.ins 1 10, BOp.ins 2 20, BOp.rem 1 10, BOp.reorg]
        = some b
      ∧ (∀ i j, i ≤ j → b.occupied i = false → b.occupied j = false)
      ∧ ∀ i, b.readable i = true → b.occupied i = true :=
  ⟨by decide, c8_bucket_bitmap_invariants 4 (by decide)
    [BOp.ins 1 10, BOp.ins 2 20, BOp.rem 1 10, BOp.reorg]⟩

/-- C9: the boolean returned by `GetValue` (bucket level, and the table level
that forwards it) is true iff at least one value was appended to the result
vector; in particular a false return leaves the result vector unchanged
(nothing was appended). -/
theorem c9_getvalue_flag (cap : Nat) (b : Bucket) (k : Nat) (hf : Nat → Nat) (s : HT) :
    ((bucketGetValue cap b k).2 = true ↔ (bucketGetValue cap b k).1 ≠ [])
    ∧ ((bucketGetValue cap b k).2 = false → (bucketGetValue cap b k).1 = [])
    ∧ ((tableGetValue cap hf s k).2 = true ↔ (tableGetValue cap hf s k).1 ≠ []) := by
  have key : ∀ (b' : Bucket),
      ((bucketGetValue cap b' k).2 = true ↔ (bucketGetValue cap b' k).1 ≠ []) := by
    intro b'
    have h := getScan_flag b' k cap 0 false
    rw [bucketGetValue] at *
    rw [h]
    simp only [Bool.false_or, Bool.not_eq_true']
    constructor
    · intro h1
      simp only [List.isEmpty_eq_false] at h1
      exact h1
    · intro h1
      simp only [List.isEmpty_eq_false]
      exact h1
  refine ⟨key b, ?_, key (getPage s (keyToPageId hf s.dir k))⟩
  intro h
  rcases hl : (bucketGetValue cap b k).1 with _ | ⟨a, l⟩
  · rfl
  · exfalso
    have := (key b).mpr (by rw [hl]; simp)
    rw [this] at h
    cases h

/-- Mirroring the source bug, `IncrLocalDepth` never returns true: every
return path yields `false` (or aborts). -/
theorem incrLocalDepth_not_true (cap : Nat) (hf : Nat → Nat) (s : HT) (idx : Nat) (s' : HT) :
    incrLocalDepth cap hf s idx ≠ some (true, s') := by
  intro h
  simp only [incrLocalDepth] at h
  split at h
  · cases h
  · simp at h
  · split at h
    · cases h
    · simp at h
    · simp at h

/-- If the bucket insert for the key fails at the loop's entry state, the
`SplitInsert` loop cannot return true: the first failed attempt leads to
`IncrLocalDepth`, which always reports failure, aborting the loop. -/
theorem splitInsertLoop_not_true (cap dirCap : Nat) (hf : Nat → Nat) (fuel : Nat)
    (s : HT) (k v : Nat) (s' : HT) (b3 : Bucket)
    (hfail : bucketInsert cap (getPage s (keyToPageId hf s.dir k)) k v = some (false, b3)) :
    splitInsertLoop cap dirCap hf fuel s k v ≠ some (true, s') := by
  intro h
  cases fuel with
  | zero => cases h
  | succ fuel =>
    simp only [splitInsertLoop, hfail] at h
    split at h
    · simp at h
    · split at h
      · cases h
      · simp at h
      · rename_i s3 heq
        exact incrLocalDepth_not_true _ _ _ _ _ heq

theorem c1Inv_pid (hf : Nat → Nat) (s : HT) (k : Nat) (hdir : s.dir = initHT.dir) :
    keyToPageId hf s.dir k = 1 := by
  rw [keyToPageId, keyToDirIndex, hdir]
  simp [initHT, dirSize, Nat.mod_one]

/-- A table insert that returns true, from a `c1Inv` state, is exactly a
successful bucket insert on page 1. -/
theorem tableInsert_true_step (cap dirCap : Nat) (hf : Nat → Nat) (fuel : Nat)
    (s : HT) (k v : Nat) (acc : List (Nat × Nat)) (hcap : 0 < cap)
    (hinv : c1Inv cap s acc) (s' : HT)
    (h : tableInsert cap dirCap hf fuel s k v = some (true, s')) :
    c1Inv cap s' ((k, v) :: acc) := by
  obtain ⟨hdir, b, hpages, ⟨e, hbe⟩, hperm⟩ := hinv
  have hpid : keyToPageId hf s.dir k = 1 := c1Inv_pid hf s k hdir
  have hgp : getPage s 1 = b := by
    rw [getPage, hpages]
    rfl
  simp only [tableInsert] at h
  rw [hpid, hgp] at h
  rcases bucketInsert_cases cap b e k v hcap hbe with
    ⟨b2, hins, _hent2, _hinv2, b3, hins3, _hent3⟩ | ⟨b2, hins, hperm2, hinv2⟩
  · -- the bucket insert failed: the table cannot have returned true
    exfalso
    rw [hins] at h
    simp only [Bool.false_eq_true, if_false] at h
    split at h
    · simp at h
    · have hpid2 : keyToPageId hf (setPage s 1 b2).dir k = 1 := hpid
      have hgp2 : getPage (setPage s 1 b2) 1 = b2 := by
        simp [getPage, setPage, hpages]
      refine splitInsertLoop_not_true cap dirCap hf fuel (setPage s 1 b2) k v s' b3 ?_ h
      rw [hpid2, hgp2]
      exact hins3
  · -- the successful fast path
    rw [hins] at h
    simp only [if_true] at h
    have h2 := Option.some.inj h
    injection h2 with h3 h4
    subst h4
    refine ⟨hdir, b2, ?_, hinv2, hperm2.trans (List.Perm.cons _ hperm)⟩
    show s.pages.set 1 b2 = [zeroBucket, b2]
    rw [hpages]
    rfl

/-- Running a list of inserts that all return true, from a `c1Inv` state,
accumulates exactly the inserted pairs. -/
theorem runInserts_c1 (cap dirCap : Nat) (hf : Nat → Nat) (fuel : Nat) (hcap : 0 < cap) :
    ∀ (ops : List (Nat × Nat)) (s : HT) (acc : List (Nat × Nat)) rs sf,
      c1Inv cap s acc →
      runInserts cap dirCap hf fuel s ops = some (rs, sf) →
      (∀ r ∈ rs, r = true) →
      c1Inv cap sf (ops.reverse ++ acc)
  | [], s, acc, rs, sf, hinv, hrun, _ => by
    rw [runInserts] at hrun
    have h12 := Option.some.inj hrun
    injection h12 with h1 h2
    subst h2
    simpa using hinv
  | p :: rest, s, acc, rs, sf, hinv, hrun, htrue => by
    rcases hti : tableInsert cap dirCap hf fuel s p.1 p.2 with _ | ⟨r, s1⟩
    · have hnone : runInserts cap dirCap hf fuel s (p :: rest) = none := by
        simp only [runInserts, hti]
      rw [hnone] at hrun
      cases hrun
    · rcases hrest : runInserts cap dirCap hf fuel s1 rest with _ | ⟨rs', sf'⟩
      · have hnone : runInserts cap dirCap hf fuel s (p :: rest) = none := by
          simp only [runInserts, hti, hrest]
        rw [hnone] at hrun
        cases hrun
      · have heq2 : runInserts cap dirCap hf fuel s (p :: rest) = some (r :: rs', sf') := by
          simp only [runInserts, hti, hrest]
        rw [heq2] at hrun
        have h12 := Option.some.inj hrun
        injection h12 with h1 h2
        subst h1
        subst h2
        have hr : r = true := htrue r (by simp)
        subst hr
        have hstep := tableInsert_true_step cap dirCap hf fuel s p.1 p.2 acc hcap
          ⟨hinv.1, hinv.2⟩ s1 hti
        have hrec := runInserts_c1 cap dirCap hf fuel hcap rest s1 ((p.1, p.2) :: acc)
          rs' sf' hstep hrest (fun x hx => htrue x (List.mem_cons_of_mem _ hx))
        have heq : rest.reverse ++ (p.1, p.2) :: acc = (p :: rest).reverse ++ acc := by
          simp
        rwa [heq] at hrec

/-- C1: starting from a newly created table, for every sequence of
`insert(txn, key, value)` calls with pairwise-distinct pairs in which every
call returned true, `get(txn, k)` returns exactly the multiset of values
inserted under `k`, for every key `k` (order unspecified).  (Since the
source's `SplitInsert` can never report success — `IncrLocalDepth` always
returns false — an all-true run stays on the fast insert path, which the
proof exploits.) -/
theorem c1_round_trip (cap dirCap : Nat) (hf : Nat → Nat) (fuel : Nat)
    (ops : List (Nat × Nat)) (rs : List Bool) (sf : HT) (hcap : 0 < cap)
    (_hdist : ops.Pairwise (· ≠ ·))
    (hrun : runInserts cap dirCap hf fuel initHT ops = some (rs, sf))
    (htrue : ∀ r ∈ rs, r = true) (k : Nat) :
    ((tableGetValue cap hf sf k).1).Perm
      ((ops.filter fun p => p.1 == k).map Prod.snd) := by
  have hinv0 : c1Inv cap initHT [] := by
    refine ⟨rfl, zeroBucket, rfl, ⟨0, Nat.zero_le _, fun i => by simp [zeroBucket],
      fun i hi => by simp [zeroBucket] at hi⟩, ?_⟩
    simp [entries, zeroBucket]
  have hfin := runInserts_c1 cap dirCap hf fuel hcap ops initHT [] rs sf hinv0 hrun htrue
  obtain ⟨hdir, b, hpages, ⟨e, hbe⟩, hperm⟩ := hfin
  have hpid : keyToPageId hf sf.dir k = 1 := c1Inv_pid hf sf k hdir
  have hgp : getPage sf 1 = b := by
    rw [getPage, hpages]
    rfl
  rw [tableGetValue, hpid, hgp, bucketGetValue_entries cap e b k hbe]
  have hops : (entries cap b).Perm ops := by
    simp only [List.append_nil] at hperm
    exact hperm.trans (List.reverse_perm ops)
  exact (hops.filter _).map _

/-- C1 witness: one insert, retrieved back. -/
theorem c1_round_trip_witness :
    0 < 2
    ∧ [((0 : Nat), (5 : Nat))].Pairwise (· ≠ ·)
    ∧ ∃ rs sf, runInserts 2 4 (fun x => x) 1 initHT [(0, 5)] = some (rs, sf)
      ∧ (∀ r ∈ rs, r = true)
      ∧ ((tableGetValue 2 (fun x => x) sf 0).1).Perm
          (([((0 : Nat), (5 : Nat))].filter fun p => p.1 == 0).map Prod.snd) :=
  ⟨by decide, by decide,
    ((runInserts 2 4 (fun x => x) 1 initHT [(0, 5)]).getD ([], initHT)).1,
    ((runInserts 2 4 (fun x => x) 1 initHT [(0, 5)]).getD ([], initHT)).2,
    rfl, by decide,
    c1_round_trip 2 4 (fun x => x) 1 [(0, 5)] _ _ (by decide) (by decide) rfl
      (by decide) 0⟩

theorem getD_set_ne (l : List Bucket) (i j : Nat) (b d : Bucket) (h : i ≠ j) :
    (l.set i b).getD j d = l.getD j d := by
  induction l generalizing i j with
  | nil => simp
  | cons a l ih =>
    cases i with
    | zero =>
      cases j with
      | zero => exact absurd rfl h
      | succ j => simp [List.set]
    | succ i =>
      cases j with
      | zero => simp [List.set]
      | succ j =>
        simp only [List.set, List.getD_cons_succ]
        exact ih i j (by omega)

/-- C4 (amended): a `remove` that returns false leaves the state exactly
unchanged, and an `insert` that returns false on the non-split path (a
duplicate found with the bucket not full) leaves the directory untouched,
the target page's live entries unchanged, and every other page unchanged.
(The original claim fails for the split path; see the counterexample.) -/
theorem c4_amended_atomicity (cap dirCap : Nat) (hf : Nat → Nat) (fuel : Nat)
    (s : HT) (k v : Nat) (e : Nat) (hcap : 0 < cap)
    (hinv : bucketInvE cap (getPage s (keyToPageId hf s.dir k)) e) :
    ((tableRemove cap hf fuel s k v).1 = false → (tableRemove cap hf fuel s k v).2 = s)
    ∧ ∀ b2, bucketInsert cap (getPage s (keyToPageId hf s.dir k)) k v = some (false, b2) →
        isFull cap b2 = false →
        tableInsert cap dirCap hf fuel s k v
          = some (false, setPage s (keyToPageId hf s.dir k) b2)
        ∧ (setPage s (keyToPageId hf s.dir k) b2).dir = s.dir
        ∧ entries cap b2 = entries cap (getPage s (keyToPageId hf s.dir k))
        ∧ ∀ p, p ≠ keyToPageId hf s.dir k →
            getPage (setPage s (keyToPageId hf s.dir k) b2) p = getPage s p := by
  constructor
  · intro hfalse
    rcases hbr : bucketRemove cap (getPage s (keyToPageId hf s.dir k)) k v with ⟨r, b0⟩
    cases r
    · simp only [tableRemove, tableRemoveT, hbr]
    · exfalso
      have h1 : (tableRemove cap hf fuel s k v).1 = true := by
        simp only [tableRemove, tableRemoveT, hbr]
      rw [hfalse] at h1
      cases h1
  · intro b2 hins hnotfull
    refine ⟨?_, rfl, ?_, ?_⟩
    · simp only [tableInsert, hins, Bool.false_eq_true, if_false, hnotfull, Bool.not_false,
        if_true]
    · rcases bucketInsert_cases cap (getPage s (keyToPageId hf s.dir k)) e k v hcap hinv with
        ⟨b2', hins', hent', _, _⟩ | ⟨b2', hins', _, _⟩
      · rw [hins'] at hins
        have := Option.some.inj hins
        injection this with _ h2
        rw [← h2]
        exact hent'
      · rw [hins'] at hins
        have := Option.some.inj hins
        injection this with h1 _
        cases h1
    · intro p hp
      show (s.pages.set (keyToPageId hf s.dir k) b2).getD p zeroBucket = _
      exact getD_set_ne _ _ _ _ _ (fun hh => hp hh.symm)

/-- C4 amended witness: duplicate insert `(0, 5)` into the non-full bucket of
`exS3`, and the remove clause at the same arguments. -/
theorem c4_amended_atomicity_witness :
    0 < 2
    ∧ bucketInvE 2 (getPage exS3 (keyToPageId (fun x => x) exS3.dir 0)) 1
    ∧ (((tableRemove 2 (fun x => x) 1 exS3 0 5).1 = false →
          (tableRemove 2 (fun x => x) 1 exS3 0 5).2 = exS3)
      ∧ ∀ b2, bucketInsert 2 (getPage exS3 (keyToPageId (fun x => x) exS3.dir 0)) 0 5
            = some (false, b2) →
          isFull 2 b2 = false →
          tableInsert 2 4 (fun x => x) 1 exS3 0 5
            = some (false, setPage exS3 (keyToPageId (fun x => x) exS3.dir 0) b2)
          ∧ (setPage exS3 (keyToPageId (fun x => x) exS3.dir 0) b2).dir = exS3.dir
          ∧ entries 2 b2 = entries 2 (getPage exS3 (keyToPageId (fun x => x) exS3.dir 0))
          ∧ ∀ p, p ≠ keyToPageId (fun x => x) exS3.dir 0 →
              getPage (setPage exS3 (keyToPageId (fun x => x) exS3.dir 0) b2) p
                = getPage exS3 p) :=
  ⟨by decide,
    ⟨by decide, fun i => rfl, fun i hi => of_decide_eq_true hi⟩,
    c4_amended_atomicity 2 4 (fun x => x) 1 exS3 0 5 1 (by decide)
      ⟨by decide, fun i => rfl, fun i hi => of_decide_eq_true hi⟩⟩

theorem dirInvB_spec (d : DirPage) (h : dirInvB d = true) :
    ∀ i j, i < dirSize d → j < dirSize d →
      ((d.bucketPageId i = d.bucketPageId j → d.localDepth i = d.localDepth j)
        ∧ (d.bucketPageId j = d.bucketPageId i
            ↔ j % 2 ^ d.localDepth i = i % 2 ^ d.localDepth i)
        ∧ d.localDepth i ≤ d.globalDepth) := by
  intro i j hi hj
  simp only [dirInvB, List.all_eq_true, List.mem_range, decide_eq_true_eq] at h
  exact h i hi j hj

theorem xor_two_pow_mod_low (x t : Nat) : (x ^^^ 2 ^ t) % 2 ^ t = x % 2 ^ t := by
  refine Nat.eq_of_testBit_eq fun i => ?_
  rw [Nat.testBit_mod_two_pow, Nat.testBit_mod_two_pow, Nat.testBit_xor]
  by_cases hi : i < t
  · rw [Nat.testBit_two_pow_of_ne (by omega : t ≠ i)]
    simp
  · simp [hi]

theorem xor_two_pow_mod_ne (x t : Nat) :
    (x ^^^ 2 ^ t) % 2 ^ (t + 1) ≠ x % 2 ^ (t + 1) := by
  intro h
  have := congrArg (fun z => z.testBit t) h
  simp only [Nat.testBit_mod_two_pow, Nat.testBit_xor, Nat.testBit_two_pow_self] at this
  revert this
  cases hx : x.testBit t <;> simp [hx]

theorem mod_pow_mono (a b s t : Nat) (hst : s ≤ t) (h : a % 2 ^ t = b % 2 ^ t) :
    a % 2 ^ s = b % 2 ^ s := by
  have hd : (2 : Nat) ^ s ∣ 2 ^ t := pow_dvd_pow 2 hst
  calc a % 2 ^ s = a % 2 ^ t % 2 ^ s := (Nat.mod_mod_of_dvd a hd).symm
    _ = b % 2 ^ t % 2 ^ s := by rw [h]
    _ = b % 2 ^ s := Nat.mod_mod_of_dvd b hd

/-- A slot agreeing on the low `t` bits agrees modulo `2 ^ (t + 1)` with
either the index or its buddy (the index with bit `t` flipped). -/
theorem mod_split_bit (x j t : Nat) (h : j % 2 ^ t = x % 2 ^ t) :
    j % 2 ^ (t + 1) = x % 2 ^ (t + 1) ∨ j % 2 ^ (t + 1) = (x ^^^ 2 ^ t) % 2 ^ (t + 1) := by
  have hbits : ∀ m, m < t → j.testBit m = x.testBit m := by
    intro m hm
    have := congrArg (fun z => z.testBit m) h
    simpa [Nat.testBit_mod_two_pow, hm] using this
  by_cases hbt : j.testBit t = x.testBit t
  · left
    refine Nat.eq_of_testBit_eq fun i => ?_
    rw [Nat.testBit_mod_two_pow, Nat.testBit_mod_two_pow]
    rcases Nat.lt_trichotomy i t with hi | rfl | hi
    · rw [hbits i hi]
    · rw [hbt]
    · have hni : ¬(i < t + 1) := by omega
      simp [hni]
  · right
    refine Nat.eq_of_testBit_eq fun i => ?_
    rw [Nat.testBit_mod_two_pow, Nat.testBit_mod_two_pow, Nat.testBit_xor]
    rcases Nat.lt_trichotomy i t with hi | rfl | hi
    · rw [hbits i hi, Nat.testBit_two_pow_of_ne (by omega : t ≠ i)]
      simp
    · rw [Nat.testBit_two_pow_self]
      revert hbt
      cases hx : x.testBit i <;> cases hj : j.testBit i <;> simp
    · have hni : ¬(i < t + 1) := by omega
      simp [hni]

/-- C6: on a directory satisfying the §3 invariants, `Merge` for a key
routed to slot `idx = h(k) &&& global_depth_mask` with `d = local_depth[idx]`
returns false exactly when `d = 0` or the buddy slot's local depth differs
from `d`; otherwise it redirects every slot of the group
`{j : j &&& (2^(d-1)-1) = idx &&& (2^(d-1)-1)}` to the buddy's page, sets
their local depths to `d - 1`, leaves all other slots untouched, passes the
old page to `DeletePage`, and returns true.  (The emptiness of the bucket is
the caller's context; `Merge` itself never inspects it.) -/
theorem c6_merge_spec (hf : Nat → Nat) (d : DirPage) (k : Nat) (hinv : dirInvB d = true) :
    ((mergeF hf d k).1 = false ↔
      (d.localDepth (hf k % dirSize d) = 0
        ∨ d.localDepth ((hf k % dirSize d) ^^^ 2 ^ (d.localDepth (hf k % dirSize d) - 1))
            ≠ d.localDepth (hf k % dirSize d)))
    ∧ (d.localDepth (hf k % dirSize d) ≠ 0 →
        d.localDepth ((hf k % dirSize d) ^^^ 2 ^ (d.localDepth (hf k % dirSize d) - 1))
          = d.localDepth (hf k % dirSize d) →
        (mergeF hf d k).1 = true
        ∧ (mergeF hf d k).2.2 = some (d.bucketPageId (hf k % dirSize d))
        ∧ (∀ j, j < dirSize d →
            j % 2 ^ (d.localDepth (hf k % dirSize d) - 1)
              = (hf k % dirSize d) % 2 ^ (d.localDepth (hf k % dirSize d) - 1) →
            (mergeF hf d k).2.1.bucketPageId j
              = d.bucketPageId
                  ((hf k % dirSize d) ^^^ 2 ^ (d.localDepth (hf k % dirSize d) - 1))
            ∧ (mergeF hf d k).2.1.localDepth j
              = d.localDepth (hf k % dirSize d) - 1)
        ∧ ∀ j, ¬(j < dirSize d ∧ j % 2 ^ (d.localDepth (hf k % dirSize d) - 1)
              = (hf k % dirSize d) % 2 ^ (d.localDepth (hf k % dirSize d) - 1)) →
            (mergeF hf d k).2.1.bucketPageId j = d.bucketPageId j
            ∧ (mergeF hf d k).2.1.localDepth j = d.localDepth j) := by
  have hsize : 0 < dirSize d := pow_pos (by omega) _
  obtain ⟨idx, hidx_def⟩ : ∃ idx, hf k % dirSize d = idx := ⟨_, rfl⟩
  have hidx : idx < dirSize d := by
    rw [← hidx_def]
    exact Nat.mod_lt _ hsize
  rw [hidx_def]
  by_cases h0 : d.localDepth idx = 0
  · -- nothing to merge
    have hm : mergeF hf d k = (false, d, none) := by
      simp only [mergeF, hidx_def]
      rw [if_pos h0]
    rw [hm]
    exact ⟨by simp [h0], fun h => absurd h0 h⟩
  · -- d ≥ 1
    obtain ⟨ld, hld_def⟩ : ∃ ld, d.localDepth idx = ld := ⟨_, rfl⟩
    rw [hld_def] at h0
    rw [hld_def]
    have hld1 : 1 ≤ ld := by omega
    have hldD : ld ≤ d.globalDepth := by
      rw [← hld_def]
      exact (dirInvB_spec d hinv idx idx hidx hidx).2.2
    have hidx2 : idx < 2 ^ d.globalDepth := hidx
    have hbuddy_lt : idx ^^^ 2 ^ (ld - 1) < dirSize d := by
      show idx ^^^ 2 ^ (ld - 1) < 2 ^ d.globalDepth
      refine Nat.xor_lt_two_pow hidx2 ?_
      exact Nat.pow_lt_pow_right (by omega) (by omega)
    have hbuddy_group : (idx ^^^ 2 ^ (ld - 1)) % 2 ^ (ld - 1) = idx % 2 ^ (ld - 1) :=
      xor_two_pow_mod_low idx (ld - 1)
    have hl1 : ld - 1 + 1 = ld := by omega
    -- the buddy's depth cannot be smaller than ld
    have hbuddy_ge : ld ≤ d.localDepth (idx ^^^ 2 ^ (ld - 1)) := by
      by_contra hcon
      push_neg at hcon
      -- buddy's characteristic set then contains idx
      have hchar := (dirInvB_spec d hinv (idx ^^^ 2 ^ (ld - 1)) idx hbuddy_lt hidx).2.1
      have hmod : idx % 2 ^ d.localDepth (idx ^^^ 2 ^ (ld - 1))
          = (idx ^^^ 2 ^ (ld - 1)) % 2 ^ d.localDepth (idx ^^^ 2 ^ (ld - 1)) :=
        mod_pow_mono _ _ _ (ld - 1) (by omega) hbuddy_group.symm
      have hpid : d.bucketPageId idx = d.bucketPageId (idx ^^^ 2 ^ (ld - 1)) :=
        hchar.mpr hmod
      have hsame := (dirInvB_spec d hinv (idx ^^^ 2 ^ (ld - 1)) idx hbuddy_lt hidx).1
      have := hsame hpid.symm
      rw [hld_def] at this
      omega
    -- when the buddy sits at depth ld, every group slot sits at depth ld
    have hgroup_depth : d.localDepth (idx ^^^ 2 ^ (ld - 1)) = ld →
        ∀ j, j < dirSize d → j % 2 ^ (ld - 1) = idx % 2 ^ (ld - 1) →
          d.localDepth j = ld := by
      intro hbd j hj hjg
      have hsplit := mod_split_bit idx j (ld - 1) hjg
      rw [hl1] at hsplit
      rcases hsplit with hcase | hcase
      · have hchar := (dirInvB_spec d hinv idx j hidx hj).2.1
        rw [hld_def] at hchar
        have hpid : d.bucketPageId j = d.bucketPageId idx := hchar.mpr hcase
        have hsame := (dirInvB_spec d hinv idx j hidx hj).1
        rw [hld_def] at hsame
        exact (hsame hpid.symm).symm
      · have hchar := (dirInvB_spec d hinv (idx ^^^ 2 ^ (ld - 1)) j hbuddy_lt hj).2.1
        rw [hbd] at hchar
        have hpid : d.bucketPageId j = d.bucketPageId (idx ^^^ 2 ^ (ld - 1)) :=
          hchar.mpr hcase
        have hsame := (dirInvB_spec d hinv (idx ^^^ 2 ^ (ld - 1)) j hbuddy_lt hj).1
        have := hsame hpid.symm
        rw [hbd] at this
        exact this.symm
    by_cases hbd : d.localDepth (idx ^^^ 2 ^ (ld - 1)) = ld
    · -- merge succeeds
      have hcheck : ((List.range (dirSize d)).any fun i =>
          i % 2 ^ (ld - 1) == idx % 2 ^ (ld - 1) && decide (ld < d.localDepth i))
            = false := by
        rw [List.any_eq_false]
        intro i hi
        simp only [Bool.and_eq_true, beq_iff_eq, decide_eq_true_eq, not_and]
        intro hg hlt
        have := hgroup_depth hbd i (List.mem_range.mp hi) hg
        omega
      have hm : mergeF hf d k
          = (true,
            { d with
              bucketPageId := fun i =>
                if i < dirSize d ∧ i % 2 ^ (ld - 1) = idx % 2 ^ (ld - 1) then
                  d.bucketPageId (idx ^^^ 2 ^ (ld - 1))
                else d.bucketPageId i,
              localDepth := fun i =>
                if i < dirSize d ∧ i % 2 ^ (ld - 1) = idx % 2 ^ (ld - 1) then
                  d.localDepth i - 1
                else d.localDepth i },
            some (d.bucketPageId idx)) := by
        simp only [mergeF, hidx_def, hld_def]
        rw [if_neg h0, hcheck]
        simp
      rw [hm]
      refine ⟨?_, fun _ _ => ⟨rfl, rfl, ?_, ?_⟩⟩
      · simp [h0, hbd]
      · intro j hj hjg
        constructor
        · show (if j < dirSize d ∧ j % 2 ^ (ld - 1) = idx % 2 ^ (ld - 1) then _ else _) = _
          rw [if_pos ⟨hj, hjg⟩]
        · show (if j < dirSize d ∧ j % 2 ^ (ld - 1) = idx % 2 ^ (ld - 1) then
              d.localDepth j - 1 else d.localDepth j) = ld - 1
          rw [if_pos ⟨hj, hjg⟩, hgroup_depth hbd j hj hjg]
      · intro j hj
        constructor
        · show (if j < dirSize d ∧ j % 2 ^ (ld - 1) = idx % 2 ^ (ld - 1) then _ else _) = _
          rw [if_neg hj]
        · show (if j < dirSize d ∧ j % 2 ^ (ld - 1) = idx % 2 ^ (ld - 1) then
              d.localDepth j - 1 else d.localDepth j) = d.localDepth j
          rw [if_neg hj]
    · -- the buddy is deeper: the pre-check fails and the merge is refused
      have hgt : ld < d.localDepth (idx ^^^ 2 ^ (ld - 1)) := by omega
      have hcheck : ((List.range (dirSize d)).any fun i =>
          i % 2 ^ (ld - 1) == idx % 2 ^ (ld - 1) && decide (ld < d.localDepth i))
            = true := by
        rw [List.any_eq_true]
        refine ⟨idx ^^^ 2 ^ (ld - 1), List.mem_range.mpr hbuddy_lt, ?_⟩
        simp only [Bool.and_eq_true, beq_iff_eq, decide_eq_true_eq]
        exact ⟨hbuddy_group, hgt⟩
      have hm : mergeF hf d k = (false, d, none) := by
        simp only [mergeF, hidx_def, hld_def]
        rw [if_neg h0, hcheck]
        simp
      rw [hm]
      exact ⟨by simp [hbd], fun _ h => absurd h hbd⟩

/-- C6 witness: a valid two-slot directory at global depth 1, both local
depths 1, distinct pages; merging for key 0 succeeds and rewires both slots
to the buddy's page at depth 0. -/
theorem c6_merge_spec_witness :
    dirInvB exDir2 = true
    ∧ (((mergeF (fun x => x) exDir2 0).1 = false ↔
        (exDir2.localDepth ((fun x : Nat => x) 0 % dirSize exDir2) = 0
          ∨ exDir2.localDepth
              (((fun x : Nat => x) 0 % dirSize exDir2)
                ^^^ 2 ^ (exDir2.localDepth ((fun x : Nat => x) 0 % dirSize exDir2) - 1))
              ≠ exDir2.localDepth ((fun x : Nat => x) 0 % dirSize exDir2)))
      ∧ (exDir2.localDepth ((fun x : Nat => x) 0 % dirSize exDir2) ≠ 0 →
          exDir2.localDepth
              (((fun x : Nat => x) 0 % dirSize exDir2)
                ^^^ 2 ^ (exDir2.localDepth ((fun x : Nat => x) 0 % dirSize exDir2) - 1))
            = exDir2.localDepth ((fun x : Nat => x) 0 % dirSize exDir2) →
          (mergeF (fun x => x) exDir2 0).1 = true
          ∧ (mergeF (fun x => x) exDir2 0).2.2
            = some (exDir2.bucketPageId ((fun x : Nat => x) 0 % dirSize exDir2))
          ∧ (∀ j, j < dirSize exDir2 →
              j % 2 ^ (exDir2.localDepth ((fun x : Nat => x) 0 % dirSize exDir2) - 1)
                = ((fun x : Nat => x) 0 % dirSize exDir2)
                    % 2 ^ (exDir2.localDepth ((fun x : Nat => x) 0 % dirSize exDir2) - 1) →
              (mergeF (fun x => x) exDir2 0).2.1.bucketPageId j
                = exDir2.bucketPageId
                    (((fun x : Nat => x) 0 % dirSize exDir2)
                      ^^^ 2 ^ (exDir2.localDepth ((fun x : Nat => x) 0 % dirSize exDir2) - 1))
              ∧ (mergeF (fun x => x) exDir2 0).2.1.localDepth j
                = exDir2.localDepth ((fun x : Nat => x) 0 % dirSize exDir2) - 1)
          ∧ ∀ j, ¬(j < dirSize exDir2
                ∧ j % 2 ^ (exDir2.localDepth ((fun x : Nat => x) 0 % dirSize exDir2) - 1)
                  = ((fun x : Nat => x) 0 % dirSize exDir2)
                      % 2 ^ (exDir2.localDepth ((fun x : Nat => x) 0 % dirSize exDir2) - 1)) →
              (mergeF (fun x => x) exDir2 0).2.1.bucketPageId j = exDir2.bucketPageId j
              ∧ (mergeF (fun x => x) exDir2 0).2.1.localDepth j = exDir2.localDepth j)) :=
  ⟨by decide, c6_merge_spec (fun x => x) exDir2 0 (by decide)⟩

theorem mapFst_eraseP (st : List (Nat × Nat)) (f : Nat) :
    ((st.eraseP fun p => p.1 == f).map Prod.fst) = (st.map Prod.fst).erase f := by
  induction st with
  | nil => rfl
  | cons a st ih =>
    by_cases h : a.1 = f
    · simp [List.eraseP_cons, List.erase_cons, h]
    · simp [List.eraseP_cons, List.erase_cons, h, ih]

/-- The ghost (timestamped) replacer run projects onto the plain run. -/
theorem lruRunT_fst : ∀ (ops : List LOp) (st : List (Nat × Nat)) (s : LRU) (t : Nat),
    st.map Prod.fst = s.list →
    (lruRunT ops st t).map Prod.fst = (lruRun ops s).list
  | [], _st, _s, _t, h => h
  | op :: rest, st, s, t, h => by
    show (lruRunT rest (lruStepT st t op) (t + 1)).map Prod.fst
      = (lruRun rest (lruStep s op)).list
    refine lruRunT_fst rest _ _ (t + 1) ?_
    cases op with
    | pin f =>
      show ((st.eraseP fun p => p.1 == f).map Prod.fst) = (lruPin s f).list
      rw [mapFst_eraseP, h]
      rfl
    | unpin f =>
      show ((if f ∈ st.map Prod.fst then st else st ++ [(f, t)]).map Prod.fst)
        = (lruUnpin s f).list
      by_cases hm : f ∈ s.list
      · rw [if_pos (by rw [h]; exact hm), lruUnpin, if_pos hm, h]
      · rw [if_neg (by rw [h]; exact hm), lruUnpin, if_neg hm]
        simp [h]
    | victim =>
      show st.tail.map Prod.fst = ((lruVictim s).2).list
      rcases hl : s.list with _ | ⟨a, r⟩
      · rw [hl] at h
        have hst : st = [] := List.map_eq_nil_iff.mp h
        subst hst
        simp [lruVictim, hl]
      · rw [hl] at h
        cases st with
        | nil => cases h
        | cons q st' =>
          simp only [List.map_cons] at h
          injection h with h1 h2
          simp [lruVictim, hl, h2]

/-- Invariants of the ghost run: timestamps are bounded by the clock, the
list is sorted by timestamp (front = earliest surviving unpin), and every
entry either predates the run or names the `unpin` operation that inserted
it. -/
theorem lruRunT_inv : ∀ (ops : List LOp) (st : List (Nat × Nat)) (t : Nat),
    (∀ p ∈ st, p.2 < t) →
    st.Pairwise (fun p q => p.2 < q.2) →
    (∀ p ∈ lruRunT ops st t, p.2 < t + ops.length)
    ∧ (lruRunT ops st t).Pairwise (fun p q => p.2 < q.2)
    ∧ ∀ p ∈ lruRunT ops st t,
        p ∈ st ∨ (t ≤ p.2 ∧ ops[p.2 - t]? = some (.unpin p.1))
  | [], st, t, hA, hB => ⟨by simpa using hA, hB, fun p hp => Or.inl hp⟩
  | op :: rest, st, t, hA, hB => by
    have hstep : ∀ q, (∀ p ∈ lruStepT st t op, p.2 < t + 1)
        ∧ (lruStepT st t op).Pairwise (fun p q => p.2 < q.2)
        ∧ (q ∈ lruStepT st t op →
            q ∈ st ∨ (q.2 = t ∧ op = .unpin q.1)) := by
      intro q
      cases op with
      | pin f =>
        have hsub : List.Sublist (st.eraseP fun p => p.1 == f) st := List.eraseP_sublist st
        exact ⟨fun p hp => by have := hA p (hsub.subset hp); omega,
          hB.sublist hsub, fun hq => Or.inl (hsub.subset hq)⟩
      | unpin f =>
        rw [show lruStepT st t (LOp.unpin f)
          = (if f ∈ st.map Prod.fst then st else st ++ [(f, t)]) from rfl]
        by_cases hm : f ∈ st.map Prod.fst
        · rw [if_pos hm]
          exact ⟨fun p hp => by have := hA p hp; omega, hB, fun hq => Or.inl hq⟩
        · rw [if_neg hm]
          refine ⟨fun p hp => ?_, ?_, fun hq => ?_⟩
          · rcases List.mem_append.mp hp with hp | hp
            · have := hA p hp; omega
            · simp only [List.mem_singleton] at hp
              subst hp; omega
          · rw [List.pairwise_append]
            exact ⟨hB, List.pairwise_singleton _ _,
              fun a ha b hb => by
                simp only [List.mem_singleton] at hb
                subst hb
                exact hA a ha⟩
          · rcases List.mem_append.mp hq with hq | hq
            · exact Or.inl hq
            · simp only [List.mem_singleton] at hq
              subst hq
              exact Or.inr ⟨rfl, rfl⟩
      | victim =>
        have hsub : List.Sublist st.tail st := List.tail_sublist st
        exact ⟨fun p hp => by have := hA p (hsub.subset hp); omega,
          hB.sublist hsub, fun hq => Or.inl (hsub.subset hq)⟩
    obtain ⟨hA2, hB2, hC2⟩ := lruRunT_inv rest (lruStepT st t op) (t + 1)
      (fun p hp => ((hstep p).1) p hp) (hstep ⟨0, 0⟩).2.1
    refine ⟨fun p hp => by have := hA2 p hp; simp only [List.length_cons]; omega, hB2,
      fun p hp => ?_⟩
    rcases hC2 p hp with hmem | ⟨ht, hidx⟩
    · rcases ((hstep p).2.2) hmem with hmem2 | ⟨hpt, hop⟩
      · exact Or.inl hmem2
      · refine Or.inr ⟨by omega, ?_⟩
        rw [hpt, Nat.sub_self]
        simp [hop]
    · refine Or.inr ⟨by omega, ?_⟩
      have hsub : p.2 - t = (p.2 - (t + 1)) + 1 := by omega
      rw [hsub]
      simpa using hidx

/-- C10: in `LRUReplacer`, `Unpin` on a frame already present leaves the
state unchanged (no refresh), so consecutive unpins of the same frame are
idempotent; a fresh `Unpin` goes to the back of the queue; `Victim` removes
and returns the front; and along any operation trace from an empty replacer
the queue is sorted by the index of each frame's surviving (un-refreshed,
not subsequently pinned) `Unpin`, each queue entry indeed stemming from that
`Unpin` — so `Victim` returns the frame whose surviving unpin is earliest. -/
theorem c10_lru_replacer (s : LRU) (f : Nat) :
    (f ∈ s.list → lruUnpin s f = s)
    ∧ lruUnpin (lruUnpin s f) f = lruUnpin s f
    ∧ (f ∉ s.list → (lruUnpin s f).list = s.list ++ [f])
    ∧ (∀ a r, s.list = a :: r → lruVictim s = (some a, ⟨r⟩))
    ∧ ∀ ops : List LOp,
        (lruRunT ops [] 0).map Prod.fst = (lruRun ops ⟨[]⟩).list
        ∧ (lruRunT ops [] 0).Pairwise (fun p q => p.2 < q.2)
        ∧ ∀ p ∈ lruRunT ops [] 0, ops[p.2]? = some (.unpin p.1) := by
  refine ⟨fun hm => by rw [lruUnpin, if_pos hm], ?_, fun hm => by rw [lruUnpin, if_neg hm],
    fun a r h => by simp [lruVictim, h], fun ops => ?_⟩
  · by_cases hm : f ∈ s.list
    · have h1 : lruUnpin s f = s := by rw [lruUnpin, if_pos hm]
      rw [h1, h1]
    · have h1 : lruUnpin s f = ⟨s.list ++ [f]⟩ := by rw [lruUnpin, if_neg hm]
      rw [h1, lruUnpin, if_pos (by simp)]
  · obtain ⟨_, hB, hC⟩ := lruRunT_inv ops [] 0 (by simp) (by simp)
    refine ⟨lruRunT_fst ops [] ⟨[]⟩ 0 rfl, hB, fun p hp => ?_⟩
    rcases hC p hp with hmem | ⟨_, hidx⟩
    · cases hmem
    · simpa using hidx

/-- C2: refuted by the source (code bug the spec itself flags).  At the
concrete full-bucket state `exS1`, `IncrLocalDepth` carries out a fully
successful split — the directory slot is rewired to fresh page 2 (which
received the entry `(0, 5)`; its sibling page 3 is empty) and its local
depth is raised to 1 — and yet returns `false`; consequently `Insert(2, 7)`
(which lands in `SplitInsert`) returns `false` after performing exactly one
split (global depth grew to 1), instead of retrying until the insert
succeeds as the claim requires. -/
theorem c2_incr_local_depth_returns_false_on_success :
    (incrLocalDepth 1 (fun x => x) exS1 0).map
        (fun p => (p.1, p.2.dir.localDepth 0, p.2.dir.bucketPageId 0, p.2.pages.length,
          entries 1 (getPage p.2 2), entries 1 (getPage p.2 3)))
      = some (false, 1, 2, 4, [(0, 5)], [])
    ∧ (tableInsert 1 4 (fun x => x) 2 exS1 2 7).map (fun p => (p.1, p.2.dir.globalDepth))
      = some (false, 1) := by
  constructor <;> rfl

/-- C3: refuted by the source.  Doubling the directory `exDir`
(`global_depth` 1, `bucket_page_id = [10, 20]`) yields `bucket_page_id =
[10, 10, 20, 20]`: the code copies `bucket_page_id[j] =
bucket_page_id[j / 2]` for every `j < 2 * size()`, so slot 1 (below the old
`size()`) is overwritten from 20 to 10, and slot `0 + size() = 2` receives
20 rather than `bucket_page_id[0] = 10` as the claim states. -/
theorem c3_doubling_divergence :
    (incrGlobalDepth exDir).globalDepth = 2
    ∧ (List.range 4).map (incrGlobalDepth exDir).bucketPageId = [10, 10, 20, 20]
    ∧ exDir.bucketPageId 1 = 20
    ∧ (incrGlobalDepth exDir).bucketPageId 1 = 10
    ∧ exDir.bucketPageId 0 = 10
    ∧ (incrGlobalDepth exDir).bucketPageId 2 = 20 := by
  refine ⟨rfl, rfl, rfl, rfl, rfl, rfl⟩

/-- C4: counterexample.  A directory-exhausted-bound insert that returns
`false` does not leave the index unchanged: from `exS1` (one full bucket,
`global_depth = 0`, `local_depth[0] = 0`), `Insert(2, 7)` returns `false`
while growing the directory to `global_depth = 1` and raising
`local_depth[0]` to 1 — the split performed by `SplitInsert` before the
failure is not rolled back. -/
theorem c4_counterexample :
    (tableInsert 1 4 (fun x => x) 2 exS1 2 7).map
        (fun p => (p.1, p.2.dir.globalDepth, p.2.dir.localDepth 0))
      = some (false, 1, 1)
    ∧ exS1.dir.globalDepth = 0 ∧ exS1.dir.localDepth 0 = 0 := by
  refine ⟨rfl, rfl, rfl⟩

/-- C5: refuted by the source (code bug).  Removing the last entry of a
bucket whose local depth is 0 takes the merge-failure path of
`ExtendibleHashTable::Remove`: the loop body unpins the bucket page, `Merge`
fails, and the epilogue unpins the same page again, so page 1 sees one fetch
and two unpins — its pin count drops by one instead of returning to its
pre-call value. -/
theorem c5_double_unpin :
    (tableRemoveT 1 (fun x => x) 2 exS1 0 5).1 = true
    ∧ (tableRemoveT 1 (fun x => x) 2 exS1 0 5).2.2
      = [Ev.fetch 0, Ev.unpin 0, Ev.fetch 1, Ev.unpin 1, Ev.fetch 0, Ev.unpin 0, Ev.unpin 1]
    ∧ pinDelta (tableRemoveT 1 (fun x => x) 2 exS1 0 5).2.2 1 = -1 := by
  refine ⟨rfl, rfl, rfl⟩

end Bustub
